import Mathlib

/-!
# fastlink: path guard, copy engine and link installer

A shallow embedding of `main.go` of the fastlink utility.

* Go strings are lists of characters (`Str`).
* The functions of `path/filepath` and `strings` that the program calls are
  embedded in their Unix form (separator `/`, no volume names), following the
  control flow of the library routines.
* The filesystem is an explicit value that the operations pass along.
-/

namespace Fastlink

/-- Go strings, as lists of characters. -/
abbrev Str := List Char

/-! ## `strings` -/

/-- `strings.HasPrefix(s, prefix)`. -/
def hasPrefix : Str → Str → Bool
  | _, [] => true
  | [], _ :: _ => false
  | c :: s, d :: p => if c = d then hasPrefix s p else false

/-- `strings.Contains(s, substr)`: some suffix of `s` starts with `substr`. -/
def contains : Str → Str → Bool
  | [], sub => hasPrefix [] sub
  | c :: s, sub => hasPrefix (c :: s) sub || contains s sub

/-! ## `path/filepath` (Unix) -/

/-- `os.IsPathSeparator`. -/
def isPathSeparator (c : Char) : Bool := decide (c = '/')

/-- The element that starts at the head of `s`: the characters before the
first separator (the inner loops `for i < n && s[i] != Separator`). -/
def elemOf : Str → Str
  | [] => []
  | c :: s => if c = '/' then [] else c :: elemOf s

/-- What is left of `s` after the element at its head (starts with a
separator, or is empty). -/
def afterElem : Str → Str
  | [] => []
  | c :: s => if c = '/' then c :: s else afterElem s

/-- The backtracking loop of `Clean`:
`for out.w > dotdot && !os.IsPathSeparator(out.index(out.w)) { out.w-- }`,
returning the final write index. -/
def backLoop (out : Str) (dotdot : Nat) : Nat → Nat
  | 0 => 0
  | w + 1 =>
    if dotdot < w + 1 ∧ out.getD (w + 1) '/' ≠ '/' then backLoop out dotdot w
    else w + 1

/-- The main loop of `filepath.Clean`. `path` is the part of the input not yet
read (`path[r:]`), `out` the buffer written so far (`out.w = out.length`),
`dotdot` the index in `out` where `..` must stop. Every round consumes at
least one character, so the length of the input is enough fuel. -/
def cleanLoop (rooted : Bool) : Nat → Str → Str → Nat → Str
  | 0, _, out, _ => out
  | fuel + 1, path, out, dotdot =>
    match path with
    | [] => out
    | c :: rest =>
      if c = '/' then
        -- empty path element
        cleanLoop rooted fuel rest out dotdot
      else if c = '.' ∧ (rest = [] ∨ rest.head? = some '/') then
        -- . element
        cleanLoop rooted fuel rest out dotdot
      else if c = '.' ∧ rest.head? = some '.' ∧
          (rest.tail = [] ∨ rest.tail.head? = some '/') then
        -- .. element: remove to last separator
        if dotdot < out.length then
          -- can backtrack
          cleanLoop rooted fuel rest.tail
            (out.take (backLoop out dotdot (out.length - 1))) dotdot
        else if rooted = false then
          -- cannot backtrack, but not rooted, so append .. element
          let out1 := (if 0 < out.length then out ++ ['/'] else out) ++ ['.', '.']
          cleanLoop rooted fuel rest.tail out1 out1.length
        else
          cleanLoop rooted fuel rest.tail out dotdot
      else
        -- real path element: add slash if needed, then copy the element
        let out1 :=
          if (rooted = true ∧ out.length ≠ 1) ∨ (rooted = false ∧ out.length ≠ 0)
          then out ++ ['/'] else out
        cleanLoop rooted fuel (afterElem (c :: rest)) (out1 ++ elemOf (c :: rest)) dotdot

/-- `filepath.Clean(path)`. -/
def Clean (path : Str) : Str :=
  match path with
  | [] => ['.']
  | c :: rest =>
    let rooted := isPathSeparator c
    let out :=
      if rooted then cleanLoop true (rest.length + 1) rest ['/'] 1
      else cleanLoop false (rest.length + 2) (c :: rest) [] 0
    -- turn empty string into "."
    if out = [] then ['.'] else out

/-- The number of separators in `s` (`bytealg.CountString(s, Separator)`). -/
def countSep (s : Str) : Nat := s.count '/'

/-- The element-matching loop of `filepath.Rel`. `base` is `base[bi:]` and
`targ` is `targ[ti:]` at the head of a round (where `b0 = bi`, `t0 = ti`).
The result is `(base[b0:bi], base[b0:], targ[t0:])` when the loop is left. -/
def relLoop : Nat → Str → Str → Str × Str × Str
  | 0, base, targ => ([], base, targ)
  | fuel + 1, base, targ =>
    if base = [] ∨ targ = [] then ([], base, targ)
    else if elemOf targ ≠ elemOf base then (elemOf base, base, targ)
    else relLoop fuel (afterElem base).tail (afterElem targ).tail

/-- The string `"/.."` repeated `n` times. -/
def upSteps : Nat → Str
  | 0 => []
  | n + 1 => ['/', '.', '.'] ++ upSteps n

/-- `filepath.Rel(basepath, targpath)`; `none` is the error return. -/
def Rel (basepath targpath : Str) : Option Str :=
  let base := Clean basepath
  let targ := Clean targpath
  if targ = base then some ['.']
  else
    let base := if base = ['.'] then [] else base
    let baseSlashed := decide (base.head? = some '/')
    let targSlashed := decide (targ.head? = some '/')
    if baseSlashed ≠ targSlashed then none
    else
      match relLoop (base.length + 1) base targ with
      | (belem, b0, t0) =>
        if belem = ['.', '.'] then none
        else if b0 ≠ [] then
          -- base elements left: go up before going down
          some (['.', '.'] ++ upSteps (countSep b0) ++
            (if t0 ≠ [] then '/' :: t0 else []))
        else some t0

/-- The function `isSubPath` of `main.go`. -/
def isSubPath (parent child : Str) : Bool :=
  let parent := Clean parent
  let child := Clean child
  match Rel parent child with
  | none => false
  | some rel => !hasPrefix rel ['.', '.']

/-! ## The filesystem

Paths handed to the operating system are modelled by the list of their
components below the root (`Path`); `filepath.Join(p, name)` with the name of
a directory entry is `p ++ [name]`. The model has no permission checks, and
symbolic links are leaves that are not followed: a link met while resolving a
path is reported like a dangling one. -/

/-- A file or directory name. -/
abbrev Name := Str

/-- The components of an absolute path, outermost first. -/
abbrev Path := List Name

/-- The permission bits of an `os.FileMode`. -/
abbrev FileMode := Nat

/-- File content. -/
abbrev Bytes := List Nat

/-- A node of the filesystem tree. -/
inductive Node where
  | file (mode : FileMode) (data : Bytes)
  | dir (mode : FileMode) (entries : List (Name × Node))
  | symlink (target : Str)

instance : Inhabited Node := ⟨.file 0 []⟩

/-- The filesystem: the root node and the process's umask. -/
structure FS where
  umask : FileMode
  root : Node

/-- What `lstat` sees of a node: kind, mode, content, but not the children. -/
inductive Entry where
  | file (mode : FileMode) (data : Bytes)
  | dir (mode : FileMode)
  | symlink (target : Str)
  deriving DecidableEq

/-- The entry a node shows. -/
def Node.entry : Node → Entry
  | .file m d => .file m d
  | .dir m _ => .dir m
  | .symlink t => .symlink t

/-- The node at a path below `o`, if the path leads to one. -/
def getO : Option Node → Path → Option Node
  | o, [] => o
  | some (.dir _ es), n :: p => getO (es.lookup n) p
  | _, _ :: _ => none

/-- Replace, insert or delete (`v = none`) the entry named `n`. -/
def alterEntries (es : List (Name × Node)) (n : Name) (v : Option Node) :
    List (Name × Node) :=
  match v with
  | some c => (n, c) :: es.filter (fun e => e.1 != n)
  | none => es.filter (fun e => e.1 != n)

/-- Apply `f` to what is at path `p` below `o`; nothing changes when the path
does not lead through directories. -/
def alterO : Option Node → Path → (Option Node → Option Node) → Option Node
  | o, [], f => f o
  | some (.dir m es), n :: p, f =>
    some (.dir m (alterEntries es n (alterO (es.lookup n) p f)))
  | o, _ :: _, _ => o

/-- The node at path `p`. -/
def FS.get (fs : FS) (p : Path) : Option Node := getO (some fs.root) p

/-- The entry at path `p` (`lstat`). -/
def FS.look (fs : FS) (p : Path) : Option Entry := (fs.get p).map Node.entry

/-- The filesystem with `f` applied at path `p`. -/
def FS.alter (fs : FS) (p : Path) (f : Option Node → Option Node) : FS :=
  { fs with root := (alterO (some fs.root) p f).getD fs.root }

/-- Error numbers of the system calls. -/
inductive Errno where
  | ENOENT | ENOTDIR | EEXIST | EISDIR | EBUSY | ENAMETOOLONG
  deriving DecidableEq

/-- The text of an error number (`syscall.Errno.Error`). -/
def Errno.text : Errno → Str
  | .ENOENT => "no such file or directory".toList
  | .ENOTDIR => "not a directory".toList
  | .EEXIST => "file exists".toList
  | .EISDIR => "is a directory".toList
  | .EBUSY => "device or resource busy".toList
  | .ENAMETOOLONG => "file name too long".toList

/-- The path as the program prints it. -/
def joinNames : Path → Str
  | [] => []
  | n :: p => '/' :: n ++ joinNames p

/-- The absolute path string of a component list. -/
def showPath (p : Path) : Str := if p = [] then ['/'] else joinNames p

/-- An `*os.PathError`. -/
structure PathError where
  op : Str
  path : Path
  err : Errno
  deriving DecidableEq

/-- `(*PathError).Error()`. -/
def PathError.Error (e : PathError) : Str :=
  e.op ++ [' '] ++ showPath e.path ++ [':', ' '] ++ e.err.text

/-- `os.IsNotExist(err)`. -/
def IsNotExist (e : PathError) : Bool := decide (e.err = .ENOENT)

/-- Walk down a path: the node reached, `ENOTDIR` when a component that is
not a directory stands in the way, `ENOENT` when a component is missing. -/
def resolve : Node → Path → Except Errno Node
  | node, [] => .ok node
  | .dir _ es, n :: p =>
    match es.lookup n with
    | some c => resolve c p
    | none => .error .ENOENT
  | _, _ :: _ => .error .ENOTDIR

/-- An `os.FileInfo`, as far as the program reads it. -/
structure FileInfo where
  isDir : Bool
  mode : FileMode
  deriving DecidableEq

/-- `os.Stat(p)`. -/
def Stat (fs : FS) (p : Path) : Except PathError FileInfo :=
  match resolve fs.root p with
  | .ok (.file m _) => .ok ⟨false, m⟩
  | .ok (.dir m _) => .ok ⟨true, m⟩
  | .ok (.symlink _) => .error ⟨"stat".toList, p, .ENOENT⟩
  | .error e => .error ⟨"stat".toList, p, e⟩

/-- The permission bits `perm &^ umask`. -/
def clearBits (perm umask : FileMode) : FileMode := perm ^^^ (perm &&& umask)

/-- `os.Mkdir(p, perm)`: the parent must be a directory and `p` must not
exist. -/
def Mkdir (fs : FS) (p : Path) (perm : FileMode) : Option PathError × FS :=
  match resolve fs.root p with
  | .ok _ => (some ⟨"mkdir".toList, p, .EEXIST⟩, fs)
  | .error .ENOENT =>
    match resolve fs.root p.dropLast with
    | .ok (.dir _ _) =>
      (none, fs.alter p (fun _ => some (.dir (clearBits perm fs.umask) [])))
    | _ => (some ⟨"mkdir".toList, p, .ENOENT⟩, fs)
  | .error e => (some ⟨"mkdir".toList, p, e⟩, fs)

/-- The work of `os.MkdirAll`: the directories `done ++ [n]`, ... down to
`done ++ todo` are made where they are missing; a component that exists and is
not a directory is an `ENOTDIR` error. -/
def mkdirAllLoop (perm : FileMode) : FS → Path → Path → Option PathError × FS
  | fs, _, [] => (none, fs)
  | fs, done, n :: rest =>
    match Stat fs (done ++ [n]) with
    | .ok info =>
      if info.isDir then mkdirAllLoop perm fs (done ++ [n]) rest
      else (some ⟨"mkdir".toList, done ++ [n], .ENOTDIR⟩, fs)
    | .error _ =>
      match Mkdir fs (done ++ [n]) perm with
      | (none, fs1) => mkdirAllLoop perm fs1 (done ++ [n]) rest
      | (some e, fs1) => (some e, fs1)

/-- `os.MkdirAll(p, perm)`. -/
def MkdirAll (fs : FS) (p : Path) (perm : FileMode) : Option PathError × FS :=
  mkdirAllLoop perm fs [] p

/-- An `os.DirEntry`, as far as the program reads it. -/
structure DirEntry where
  name : Name
  isDir : Bool
  deriving DecidableEq

/-- Byte-wise order of file names. -/
def nameLE : Name → Name → Bool
  | [], _ => true
  | _ :: _, [] => false
  | c :: s, d :: t =>
    if c.toNat < d.toNat then true
    else if d.toNat < c.toNat then false
    else nameLE s t

/-- Is this a directory node? -/
def isDirNode : Option Node → Bool
  | some (.dir _ _) => true
  | _ => false

/-- The entries of a directory, sorted by file name. -/
def listDir (es : List (Name × Node)) : List DirEntry :=
  ((es.map Prod.fst).dedup.insertionSort (fun a b => nameLE a b = true)).map
    (fun n => ⟨n, isDirNode (es.lookup n)⟩)

/-- `os.ReadDir(p)`: the entries of the directory, sorted by file name. -/
def ReadDir (fs : FS) (p : Path) : Except PathError (List DirEntry) :=
  match resolve fs.root p with
  | .ok (.dir _ es) => .ok (listDir es)
  | .ok _ => .error ⟨"readdirent".toList, p, .ENOTDIR⟩
  | .error e => .error ⟨"open".toList, p, e⟩

/-- `os.Open(p)`: the open file is named by its path. -/
def Open (fs : FS) (p : Path) : Except PathError Path :=
  match resolve fs.root p with
  | .ok (.symlink _) => .error ⟨"open".toList, p, .ENOENT⟩
  | .ok _ => .ok p
  | .error e => .error ⟨"open".toList, p, e⟩

/-- `(*os.File).Stat()` on an open file. -/
def fileStat (fs : FS) (f : Path) : Except PathError FileInfo :=
  match Stat fs f with
  | .ok info => .ok info
  | .error e => .error ⟨"stat".toList, f, e.err⟩

/-- `os.Create(p)`: an existing regular file is truncated, a missing one is
made with mode `0666 &^ umask`; the parent must be a directory. Links are
outside this model: where a symbolic link stands at `p` the system call would
open the target of the link, and the model reports a failure instead, so
statements about a successful `Create` speak of paths at which no link
stands. -/
def Create (fs : FS) (p : Path) : Option PathError × FS :=
  match resolve fs.root p with
  | .ok (.file m _) => (none, fs.alter p (fun _ => some (.file m [])))
  | .ok (.dir _ _) => (some ⟨"open".toList, p, .EISDIR⟩, fs)
  | .ok (.symlink _) => (some ⟨"open".toList, p, .ENOENT⟩, fs)
  | .error .ENOENT =>
    match resolve fs.root p.dropLast with
    | .ok (.dir _ _) =>
      (none, fs.alter p (fun _ => some (.file (clearBits 0o666 fs.umask) [])))
    | _ => (some ⟨"open".toList, p, .ENOENT⟩, fs)
  | .error e => (some ⟨"open".toList, p, e⟩, fs)

/-- `(*os.File).Chmod(mode)` on an open regular file. -/
def Chmod (fs : FS) (f : Path) (mode : FileMode) : Option PathError × FS :=
  (none, fs.alter f (fun o =>
    match o with
    | some (.file _ d) => some (.file mode d)
    | other => other))

/-- `io.CopyBuffer(dst, src, buffer)` on two open files: what can be read
from `src` is written to `dst`. Reading a directory fails. -/
def CopyBuffer (fs : FS) (dst src : Path) : Option PathError × FS :=
  match fs.get src with
  | some (.file _ data) =>
    (none, fs.alter dst (fun o =>
      match o with
      | some (.file m d) => some (.file m (d ++ data))
      | other => other))
  | _ => (some ⟨"read".toList, src, .EISDIR⟩, fs)

/-- `os.RemoveAll(p)`: removes `p` and what is below it; a missing path is no
error. -/
def RemoveAll (fs : FS) (p : Path) : Option PathError × FS :=
  match resolve fs.root p with
  | .ok _ =>
    if p = [] then
      (some ⟨"unlinkat".toList, p, .EBUSY⟩,
        { fs with root := match fs.root with
                          | .dir m _ => .dir m []
                          | other => other })
    else (none, fs.alter p (fun _ => none))
  | .error .ENOENT => (none, fs)
  | .error e => (some ⟨"unlinkat".toList, p, e⟩, fs)

/-- An `*os.LinkError`. -/
structure LinkError where
  op : Str
  old : Str
  new : Path
  err : Errno
  deriving DecidableEq

/-- `(*LinkError).Error()`. -/
def LinkError.Error (e : LinkError) : Str :=
  e.op ++ [' '] ++ e.old ++ [' '] ++ showPath e.new ++ [':', ' '] ++ e.err.text

/-- `os.Symlink(oldname, newname)`: makes `newname` a symbolic link whose
target is the string `oldname`. -/
def Symlink (fs : FS) (oldname : Str) (newname : Path) : Option LinkError × FS :=
  match resolve fs.root newname with
  | .ok _ => (some ⟨"symlink".toList, oldname, newname, .EEXIST⟩, fs)
  | .error .ENOENT =>
    match resolve fs.root newname.dropLast with
    | .ok (.dir _ _) => (none, fs.alter newname (fun _ => some (.symlink oldname)))
    | _ => (some ⟨"symlink".toList, oldname, newname, .ENOENT⟩, fs)
  | .error e => (some ⟨"symlink".toList, oldname, newname, e⟩, fs)

/-! ## The copy engine of `main.go` -/

/-- The function `copyFile` of `main.go`: the returned error (`none` is
`nil`) and the filesystem it leaves. -/
def copyFile (fs : FS) (source dest : Path) : Option PathError × FS :=
  -- open source file
  match Open fs source with
  | .error e => (some e, fs)
  | .ok srcFile =>
    -- get source file info
    match fileStat fs srcFile with
    | .error e => (some e, fs)
    | .ok srcInfo =>
      -- create destination file
      match Create fs dest with
      | (some e, fs1) => (some e, fs1)
      | (none, fs1) =>
        -- set destination file permissions to match source
        match Chmod fs1 dest srcInfo.mode with
        | (some e, fs2) => (some e, fs2)
        | (none, fs2) =>
          -- copy file content; the final Sync changes nothing
          CopyBuffer fs2 dest srcFile

/-- The loop `for _, entry := range entries` of `copyDir`; `recur` is the
recursive call `copyDir(srcPath, destPath, false)`. -/
def copyEntries (recur : FS → Path → Path → Option PathError × FS)
    (source dest : Path) : FS → List DirEntry → Option PathError × FS
  | fs, [] => (none, fs)
  | fs, entry :: entries =>
    if entry.isDir then
      match recur fs (source ++ [entry.name]) (dest ++ [entry.name]) with
      | (some e, fs1) => (some e, fs1)
      | (none, fs1) => copyEntries recur source dest fs1 entries
    else
      match copyFile fs (source ++ [entry.name]) (dest ++ [entry.name]) with
      | (some e, fs1) => (some e, fs1)
      | (none, fs1) => copyEntries recur source dest fs1 entries

/-- The function `copyDir` of `main.go`. The first argument bounds the depth
of the recursion; when it is used up the call fails as the system does when
the paths grow beyond its limit. -/
def copyDir : Nat → FS → Path → Path → Bool → Option PathError × FS
  | 0, fs, source, _, _ => (some ⟨"stat".toList, source, .ENAMETOOLONG⟩, fs)
  | fuel + 1, fs, source, dest, _ =>
    -- get source directory info
    match Stat fs source with
    | .error e => (some e, fs)
    | .ok srcInfo =>
      -- create destination directory with same permissions
      match MkdirAll fs dest srcInfo.mode with
      | (some e, fs1) => (some e, fs1)
      | (none, fs1) =>
        -- read source directory entries
        match ReadDir fs1 source with
        | .error e => (some e, fs1)
        | .ok entries =>
          copyEntries (fun fs2 s d => copyDir fuel fs2 s d false) source dest fs1 entries

/-- A Go `error` of the program, by its message. -/
abbrev Error := Str

/-- The function `fastCopy` of `main.go`. -/
def fastCopy (fuel : Nat) (fs : FS) (source dest : Path) (move : Bool) :
    Option Error × FS :=
  -- get source info
  match Stat fs source with
  | .error e => (some ("failed to stat source: ".toList ++ e.Error), fs)
  | .ok sourceInfo =>
    -- check if destination already exists
    match Stat fs dest with
    | .ok _ => (some ("destination already exists: ".toList ++ showPath dest), fs)
    | .error _ =>
      let copied : Option Error × FS :=
        if sourceInfo.isDir then
          match copyDir fuel fs source dest move with
          | (some e, fs1) => (some ("failed to copy directory: ".toList ++ e.Error), fs1)
          | (none, fs1) => (none, fs1)
        else
          match copyFile fs source dest with
          | (some e, fs1) => (some ("failed to copy file: ".toList ++ e.Error), fs1)
          | (none, fs1) => (none, fs1)
      match copied with
      | (some e, fs1) => (some e, fs1)
      | (none, fs1) =>
        -- remove source if this is a move operation
        if move then
          match RemoveAll fs1 source with
          | (some e, fs2) =>
            (some ("failed to remove source after move: ".toList ++ e.Error), fs2)
          | (none, fs2) => (none, fs2)
        else (none, fs1)

/-! ## Path strings and the operating system -/

/-- The elements of a path string: the pieces between separators. -/
def splitSep : Str → List Str
  | [] => [[]]
  | c :: s =>
    if c = '/' then [] :: splitSep s
    else
      match splitSep s with
      | [] => [[c]]
      | e :: es => (c :: e) :: es

/-- One step of path resolution: empty elements and `.` stay in place, `..`
goes to the parent (the root is its own parent), a name goes down. -/
def pathStep (stack : Path) (elem : Str) : Path :=
  if elem = [] ∨ elem = ['.'] then stack
  else if elem = ['.', '.'] then stack.dropLast
  else stack ++ [elem]

/-- The location a path string names for a process whose current directory
is `wd`. -/
def osPath (wd : Path) (s : Str) : Path :=
  (splitSep s).foldl pathStep (if s.head? = some '/' then [] else wd)

/-- `strings.Join(elems, "/")`. -/
def joinSep : List Str → Str
  | [] => []
  | [e] => e
  | e :: es => e ++ '/' :: joinSep es

/-- `filepath.Join(elem...)`: the elements from the first non-empty one on,
joined by separators and cleaned. -/
def Join : List Str → Str
  | [] => []
  | e :: es => if e ≠ [] then Clean (joinSep (e :: es)) else Join es

/-- `filepath.IsAbs(path)`. -/
def IsAbs (path : Str) : Bool := hasPrefix path ['/']

/-- The first loop of `filepath.Base`: strip trailing slashes (on the reversed
string). -/
def stripSlashes : Str → Str
  | [] => []
  | c :: s => if c = '/' then stripSlashes s else c :: s

/-- `filepath.Base(path)`. -/
def Base (path : Str) : Str :=
  if path = [] then ['.']
  else
    let last := (elemOf (stripSlashes path.reverse)).reverse
    if last = [] then ['/'] else last

/-! ## `main` -/

/-- The type `Config` of `main.go`. -/
structure Config where
  Destination : Str
  Keep : Bool
  Move : Bool
  deriving DecidableEq

/-- What `main` reads from its process environment. `keepFlag` and `moveFlag`
are what `flag.Parse` found on the command line for `-k`/`--keep` and
`-m`/`--move`: `none` when the flag does not occur, `some b` when it was set
to `b`. `args` is `flag.Args()`. -/
structure Env where
  keepFlag : Option Bool
  moveFlag : Option Bool
  args : List Str
  home : Except Error Str
  wd : Path
  unmarshal : Bytes → Except Error Config

/-- `os.UserHomeDir()`. -/
def UserHomeDir (env : Env) : Except Error Str := env.home

/-- `os.Getwd()`. -/
def Getwd (env : Env) : Except Error Str := .ok (showPath env.wd)

/-- `filepath.Abs(path)`. -/
def Abs (env : Env) (path : Str) : Except Error Str :=
  if IsAbs path then .ok (Clean path)
  else
    match Getwd env with
    | .error e => .error e
    | .ok wd => .ok (Join [wd, path])

/-- `os.ReadFile(p)`. -/
def ReadFile (fs : FS) (p : Path) : Except PathError Bytes :=
  match resolve fs.root p with
  | .ok (.file _ data) => .ok data
  | .ok (.dir _ _) => .error ⟨"read".toList, p, .EISDIR⟩
  | .ok (.symlink _) => .error ⟨"open".toList, p, .ENOENT⟩
  | .error e => .error ⟨"open".toList, p, e⟩

/-- The function `loadConfig` of `main.go`. -/
def loadConfig (env : Env) (fs : FS) : Except Error Config :=
  match UserHomeDir env with
  | .error e => .error ("unable to get user home directory: ".toList ++ e)
  | .ok homeDir =>
    let configPath :=
      Join [homeDir, ".config".toList, "fastlink".toList, "config.yaml".toList]
    -- if config file doesn't exist, return empty config
    let missing : Bool :=
      match Stat fs (osPath env.wd configPath) with
      | .error e => IsNotExist e
      | .ok _ => false
    if missing then .ok ⟨[], false, false⟩
    else
      match ReadFile fs (osPath env.wd configPath) with
      | .error e => .error ("unable to read config file: ".toList ++ e.Error)
      | .ok data =>
        match env.unmarshal data with
        | .error e => .error ("unable to parse config file: ".toList ++ e)
        | .ok config => .ok config

/-- How a run of `main` ends: exit status, the message printed last, and the
filesystem left behind. -/
structure Outcome where
  exit : Nat
  message : Str
  fs : FS

/-- What lines 21 to 67 of `main` settle. -/
structure Settings where
  source : Str
  destination : Str
  keep : Bool
  move : Bool
  deriving DecidableEq

/-- Lines 21 to 67 of `main`: flags, positional arguments and configuration.
The error value is the message of the failing exit (status 1). -/
def settings (env : Env) (fs : FS) : Except Str Settings :=
  let keep := env.keepFlag.getD false
  let move := env.moveFlag.getD false
  match env.args with
  | [] => .error "Usage".toList
  | source :: more =>
    let loaded : Except Str (Str × Bool × Bool) :=
      -- get destination from args or config
      match more with
      | destination :: _ => .ok (destination, keep, move)
      | [] =>
        match loadConfig env fs with
        | .error e => .error ("Error loading config: ".toList ++ e ++ ['\n'])
        | .ok config =>
          .ok (config.Destination,
            -- use config keep flag if not overridden by command line
            (if !keep then config.Keep else keep),
            -- use config move flag if not overridden by command line
            (if !move then config.Move else move))
    match loaded with
    | .error e => .error e
    | .ok (destination, keep, move) =>
      if destination = [] then
        .error "Error: destination not provided and not found in config\n".toList
      else .ok ⟨source, destination, keep, move⟩

/-- Lines 69 to 130 of `main`, after the settings are known. `fuel` bounds
the recursion depth of `copyDir`. -/
def transfer (fuel : Nat) (env : Env) (fs : FS) (st : Settings) : Outcome :=
  -- convert to absolute paths
  match Abs env st.source with
  | .error e =>
    ⟨1, "Error getting absolute path for source: ".toList ++ e ++ ['\n'], fs⟩
  | .ok sourceAbs =>
    match Abs env st.destination with
    | .error e =>
      ⟨1, "Error getting absolute path for destination: ".toList ++ e ++ ['\n'], fs⟩
    | .ok destinationAbs =>
      -- check for recursive move
      if isSubPath sourceAbs destinationAbs then
        ⟨1, "Error: recursive move is not allowed\n".toList, fs⟩
      else
        -- check if source exists
        match Stat fs (osPath env.wd sourceAbs) with
        | .error e =>
          ⟨1, "Error: source does not exist: ".toList ++ e.Error ++ ['\n'], fs⟩
        | .ok sourceInfo =>
          -- create destination directory if it doesn't exist
          match MkdirAll fs (osPath env.wd destinationAbs) 0o755 with
          | (some e, fs1) =>
            ⟨1, "Error creating destination directory: ".toList ++ e.Error ++ ['\n'], fs1⟩
          | (none, fs1) =>
            -- determine final destination path
            let finalDest :=
              if sourceInfo.isDir then Join [destinationAbs, Base sourceAbs]
              else Join [destinationAbs, Base sourceAbs]
            -- copy/move the file or directory
            match fastCopy fuel fs1 (osPath env.wd sourceAbs) (osPath env.wd finalDest)
                st.move with
            | (some e, fs2) =>
              ⟨1, "Error copying file/directory: ".toList ++ e ++ ['\n'], fs2⟩
            | (none, fs2) =>
              if !st.keep then
                -- create soft link at original location
                match RemoveAll fs2 (osPath env.wd sourceAbs) with
                | (some e, fs3) =>
                  ⟨1, "Error removing original file: ".toList ++ e.Error ++ ['\n'], fs3⟩
                | (none, fs3) =>
                  match Symlink fs3 finalDest (osPath env.wd sourceAbs) with
                  | (some e, fs4) =>
                    ⟨1, "Error creating symlink: ".toList ++ e.Error ++ ['\n'], fs4⟩
                  | (none, fs4) =>
                    ⟨0, "Moved ".toList ++ sourceAbs ++ " to ".toList ++ finalDest ++
                      " and created symlink\n".toList, fs4⟩
              else
                ⟨0, "Copied ".toList ++ sourceAbs ++ " to ".toList ++ finalDest ++
                  " (keeping original)\n".toList, fs2⟩

/-- The function `main` of `main.go`. -/
def main (fuel : Nat) (env : Env) (fs : FS) : Outcome :=
  match settings env fs with
  | .error e => ⟨1, e, fs⟩
  | .ok st => transfer fuel env fs st

/-! ## Specification vocabulary -/

/-- Filesystem `fs'` holds at `d` a copy of what `fs` holds at `s`: every
regular file below `s` stands at the same place below `d` with the same mode
and bytes, every directory below `s` (and `s` itself) is a directory below
`d`, and outside `d` nothing that existed has changed and nothing has come
into being except missing ancestors of `d`. -/
def Copied (fs fs' : FS) (s d : Path) : Prop :=
  (∀ q, ¬ d <+: q → (fs.look q ≠ none ∨ ¬ q <+: d) → fs'.look q = fs.look q) ∧
  (∀ r m c, fs.look (s ++ r) = some (.file m c) → fs'.look (d ++ r) = some (.file m c)) ∧
  (∀ r m, fs.look (s ++ r) = some (.dir m) → ∃ m', fs'.look (d ++ r) = some (.dir m'))

/-- A name as path resolution keeps it: not empty, without separator, and
neither `.` nor `..`. -/
def ProperName (n : Str) : Prop := n ≠ [] ∧ '/' ∉ n ∧ n ≠ ['.'] ∧ n ≠ ['.', '.']

/-- A location all of whose components are proper names. -/
def ProperPath (p : Path) : Prop := ∀ n ∈ p, ProperName n

/-- One step of cleaning a relative path. The state `(k, st)` stands for
`k` leading `..` elements followed by the names `st`: empty elements and `.`
leave it, `..` drops the last name or, when there is none, adds a leading
`..`, and a name is added at the end. -/
def relStep (s : Nat × Path) (e : Str) : Nat × Path :=
  if e = [] ∨ e = ['.'] then s
  else if e = ['.', '.'] then
    (if s.2 = [] then (s.1 + 1, []) else (s.1, s.2.dropLast))
  else (s.1, s.2 ++ [e])

/-- The written form of the state of `relStep`: its elements joined by
separators (the empty string for the empty state). -/
def renderRel (s : Nat × Path) : Str :=
  joinSep (List.replicate s.1 ['.', '.'] ++ s.2)

/-! ## Example inputs -/

/-- A filesystem with a directory `/a` holding the file `/a/f`, and a file
`/d`. -/
def exampleFS : FS :=
  ⟨0o022, .dir 0o755
    [("a".toList, .dir 0o755 [("f".toList, .file 0o644 [1])]),
     ("d".toList, .file 0o600 [2])]⟩

/-- A command line `fastlink /a /a/..x`, run in `/`. -/
def nestedEnv : Env :=
  ⟨none, none, ["/a".toList, "/a/..x".toList], .ok "/root".toList, [],
    fun _ => .ok ⟨[], false, false⟩⟩

/-- A filesystem whose only file is the configuration file
`/h/.config/fastlink/config.yaml`. -/
def configFS : FS :=
  ⟨0o022, .dir 0o755
    [("h".toList, .dir 0o755
      [(".config".toList, .dir 0o755
        [("fastlink".toList, .dir 0o755
          [("config.yaml".toList, .file 0o644 [107])])])])]⟩

/-- A command line `fastlink /s /t` without flags, for a user whose home is
`/h` and whose configuration sets `keep` and `move`. -/
def positionalEnv : Env :=
  ⟨none, none, ["/s".toList, "/t".toList], .ok "/h".toList, [],
    fun _ => .ok ⟨"/c".toList, true, true⟩⟩

/-- A command line `fastlink /s` without flags, with the same
configuration. -/
def configEnv : Env :=
  ⟨none, none, ["/s".toList], .ok "/h".toList, [],
    fun _ => .ok ⟨"/c".toList, true, true⟩⟩

/-- A filesystem in which the directory `/a/b` holds the files `a` and `c`
and a directory `b` that again holds files `a` and `c`, with other bytes. -/
def overlapFS : FS :=
  ⟨0o022, .dir 0o755
    [("a".toList, .dir 0o755
      [("b".toList, .dir 0o755
        [("a".toList, .file 0o644 [1]),
         ("b".toList, .dir 0o755
           [("a".toList, .file 0o644 [2]), ("c".toList, .file 0o644 [2])]),
         ("c".toList, .file 0o644 [1])])])]⟩

/-- A command line `fastlink /a /t` without flags, run in `/`. -/
def linkEnv : Env :=
  ⟨none, none, ["/a".toList, "/t".toList], .ok "/root".toList, [],
    fun _ => .ok ⟨[], false, false⟩⟩

/-- A command line `fastlink -k /a /t`, run in `/`. -/
def keepEnv : Env :=
  ⟨some true, none, ["/a".toList, "/t".toList], .ok "/root".toList, [],
    fun _ => .ok ⟨[], false, false⟩⟩

/-- A command line `fastlink -k -m /a /t`, run in `/`. -/
def keepMoveEnv : Env :=
  ⟨some true, some true, ["/a".toList, "/t".toList], .ok "/root".toList, [],
    fun _ => .ok ⟨[], false, false⟩⟩

/-! # Properties -/

/-! ## Strings -/

theorem hasPrefix_append (p s : Str) : hasPrefix (p ++ s) p = true := by
  induction p with
  | nil => cases s <;> rfl
  | cons c p ih => simp [hasPrefix, ih]

theorem contains_of_hasPrefix (s sub : Str) (h : hasPrefix s sub = true) :
    contains s sub = true := by
  cases s with
  | nil => simpa [contains] using h
  | cons c s => simp [contains, h]

/-! ## The path guard -/

/-- C1 (evaluation at the failing input): for the parent `/home/user` and its
strict descendant `/home/user/..cache`, whose last segment is a file name
other than `.` and `..`, `isSubPath` returns false. -/
theorem isSubPath_dotdot_name :
    isSubPath "/home/user".toList "/home/user/..cache".toList = false := by
  decide

/-- C2: for every path string `P`, `isSubPath P P` is true. -/
theorem isSubPath_self (P : Str) : isSubPath P P = true := by
  simp [isSubPath, Rel, hasPrefix]

/-! ## The destination guard of `fastCopy` -/

/-- C3 (counterexample): the destination `/d` exists and the source `/nosuch`
does not; for both values of `move` the error of `fastCopy` does not contain
"destination already exists". -/
theorem fastCopy_missing_source :
    (Stat exampleFS ["d".toList]).toOption = some ⟨false, 0o600⟩ ∧
    ∀ move, contains
      ((fastCopy 1 exampleFS ["nosuch".toList] ["d".toList] move).1.getD [])
      "destination already exists".toList = false := by
  decide

/-- C3 (amended): for every source that exists and every destination that
exists, `fastCopy` returns an error whose message contains "destination
already exists" and leaves the filesystem as it was, for both values of
`move`. -/
theorem fastCopy_dest_exists (fuel : Nat) (fs : FS) (source dest : Path)
    (move : Bool) (si di : FileInfo)
    (hs : Stat fs source = .ok si) (hd : Stat fs dest = .ok di) :
    ∃ msg, fastCopy fuel fs source dest move = (some msg, fs) ∧
      contains msg "destination already exists".toList = true := by
  refine ⟨"destination already exists: ".toList ++ showPath dest, ?_, ?_⟩
  · simp [fastCopy, hs, hd]
  · apply contains_of_hasPrefix
    have h : "destination already exists: ".toList =
        "destination already exists".toList ++ [':', ' '] := by decide
    rw [h, List.append_assoc]
    exact hasPrefix_append _ _

/-- C3 (witness): the source `/a` and the destination `/d` both exist. -/
theorem fastCopy_dest_exists_witness :
    Stat exampleFS ["a".toList] = .ok ⟨true, 0o755⟩ ∧
    Stat exampleFS ["d".toList] = .ok ⟨false, 0o600⟩ ∧
    ∃ msg, fastCopy 1 exampleFS ["a".toList] ["d".toList] true = (some msg, exampleFS) ∧
      contains msg "destination already exists".toList = true :=
  ⟨rfl, rfl, fastCopy_dest_exists 1 exampleFS _ _ true _ _ rfl rfl⟩

/-! ## Flags and configuration -/

/-- C10 (counterexample): with a positional destination and no flag on the
command line, the configuration file sets `keep` and `move` to true, yet both
effective settings are false. -/
theorem settings_positional_ignores_config :
    (loadConfig positionalEnv configFS).toOption = some ⟨"/c".toList, true, true⟩ ∧
    positionalEnv.keepFlag = none ∧ positionalEnv.moveFlag = none ∧
    (settings positionalEnv configFS).toOption =
      some ⟨"/s".toList, "/t".toList, false, false⟩ := by
  decide

/-- C10 (amended): when `main` gets past its settings, then with a positional
destination the effective `keep` and `move` are the values of the flags
(false when a flag is not set) and the configuration is not used; without a
positional destination the configuration loads, and each effective setting is
true when its flag is set to true and is the configuration's value when its
flag is not set. -/
theorem settings_keep_move (env : Env) (fs : FS) (st : Settings)
    (h : settings env fs = .ok st) :
    (2 ≤ env.args.length →
      st.keep = env.keepFlag.getD false ∧ st.move = env.moveFlag.getD false) ∧
    (env.args.length = 1 → ∃ cfg, loadConfig env fs = .ok cfg ∧
      (env.keepFlag = some true → st.keep = true) ∧
      (env.keepFlag = none → st.keep = cfg.Keep) ∧
      (env.moveFlag = some true → st.move = true) ∧
      (env.moveFlag = none → st.move = cfg.Move)) := by
  unfold settings at h
  cases hargs : env.args with
  | nil => simp [hargs] at h
  | cons source more =>
    cases more with
    | nil =>
      simp only [hargs] at h
      cases hc : loadConfig env fs with
      | error e => simp [hc] at h
      | ok cfg =>
        simp only [hc] at h
        split at h
        · simp at h
        · injection h with h
          subst h
          refine ⟨by simp, fun _ => ⟨cfg, rfl, ?_, ?_, ?_, ?_⟩⟩ <;>
            intro hk <;> simp [hk]
    | cons destination rest =>
      simp only [hargs] at h
      split at h
      · simp at h
      · injection h with h
        subst h
        exact ⟨fun _ => ⟨rfl, rfl⟩, by simp⟩

/-- C10 (witness): `fastlink /s` with a configuration that sets both. -/
theorem settings_keep_move_witness :
    settings configEnv configFS = .ok ⟨"/s".toList, "/c".toList, true, true⟩ ∧
    (configEnv.args.length = 1 → ∃ cfg, loadConfig configEnv configFS = .ok cfg ∧
      (configEnv.keepFlag = none → true = cfg.Keep)) :=
  ⟨rfl, fun h1 =>
    let ⟨cfg, hc, _, hk, _, _⟩ :=
      (settings_keep_move configEnv configFS ⟨"/s".toList, "/c".toList, true, true⟩ rfl).2 h1
    ⟨cfg, hc, hk⟩⟩

/-! ## The recursive-move check of `main` -/

/-- C9 (evaluation at the failing input): for `fastlink /a /a/..x` the
absolute destination `/a/..x` lies inside the absolute source `/a`, the check
lets it pass, and `main` makes the directory `/a/..x` before it fails in the
copy. -/
theorem main_nested_dotdot_name :
    (Abs nestedEnv "/a".toList).toOption = some "/a".toList ∧
    (Abs nestedEnv "/a/..x".toList).toOption = some "/a/..x".toList ∧
    isSubPath "/a".toList "/a/..x".toList = false ∧
    exampleFS.look ["a".toList, "..x".toList] = none ∧
    (main 2 nestedEnv exampleFS).exit = 1 ∧
    (main 2 nestedEnv exampleFS).message ≠ "Error: recursive move is not allowed\n".toList ∧
    (main 2 nestedEnv exampleFS).fs.look ["a".toList, "..x".toList] = some (.dir 0o755) := by
  decide

/-! ## The filesystem tree -/

theorem lookup_filter_self (es : List (Name × Node)) (n : Name) :
    (es.filter (fun e => e.1 != n)).lookup n = none := by
  induction es with
  | nil => rfl
  | cons e es ih =>
    obtain ⟨k, v⟩ := e
    by_cases hk : k = n
    · simp [List.filter_cons, hk, ih]
    · have hn : (n == k) = false := by simpa using fun h => hk h.symm
      simp [List.filter_cons, hk, List.lookup_cons, hn, ih]

theorem lookup_filter_ne (es : List (Name × Node)) (n k : Name) (h : k ≠ n) :
    (es.filter (fun e => e.1 != n)).lookup k = es.lookup k := by
  induction es with
  | nil => rfl
  | cons e es ih =>
    obtain ⟨j, v⟩ := e
    by_cases hj : j = n
    · subst hj
      have hkj : (k == j) = false := by simpa using h
      simp [List.filter_cons, List.lookup_cons, hkj, ih]
    · simp [List.filter_cons, hj, List.lookup_cons, ih]

theorem lookup_alterEntries_self (es : List (Name × Node)) (n : Name) (v : Option Node) :
    (alterEntries es n v).lookup n = v := by
  cases v with
  | none => simp [alterEntries, lookup_filter_self]
  | some c => simp [alterEntries]

theorem lookup_alterEntries_ne (es : List (Name × Node)) (n k : Name) (v : Option Node)
    (h : k ≠ n) : (alterEntries es n v).lookup k = es.lookup k := by
  have hkn : (k == n) = false := by simpa using h
  cases v with
  | none => simp [alterEntries, lookup_filter_ne es n k h]
  | some c => simp [alterEntries, List.lookup_cons, hkn, lookup_filter_ne es n k h]

theorem getO_none (p : Path) : getO none p = none := by
  cases p <;> rfl

theorem getO_append (o : Option Node) (p q : Path) :
    getO o (p ++ q) = getO (getO o p) q := by
  induction p generalizing o with
  | nil => simp [getO]
  | cons n p ih =>
    match o with
    | none => simp [getO, getO_none]
    | some (.file _ _) => simp [getO, getO_none]
    | some (.symlink _) => simp [getO, getO_none]
    | some (.dir _ es) => simpa [getO] using ih (es.lookup n)

/-- Below the place that `alterO` changes, the tree is what `f` put there,
when the parent of that place is a directory. -/
theorem getO_alterO_below (o : Option Node) (p : Path) (n : Name)
    (f : Option Node → Option Node) (r : Path) (m : FileMode) (es : List (Name × Node))
    (hd : getO o p = some (.dir m es)) :
    getO (alterO o (p ++ [n]) f) (p ++ [n] ++ r) = getO (f (getO o (p ++ [n]))) r := by
  induction p generalizing o with
  | nil =>
    simp only [getO] at hd
    subst hd
    simp [alterO, getO, lookup_alterEntries_self]
  | cons k p ih =>
    match o, hd with
    | some (.dir m' es'), hd =>
      simp only [getO] at hd
      simp only [List.cons_append, alterO, getO, lookup_alterEntries_self]
      simpa using ih (es'.lookup k) hd

/-- Away from the place that `alterO` changes, every entry is as before. -/
theorem entry_getO_alterO (o : Option Node) (p : Path) (f : Option Node → Option Node)
    (q : Path) (h : ¬ p <+: q) :
    (getO (alterO o p f) q).map Node.entry = (getO o q).map Node.entry := by
  induction p generalizing o q with
  | nil => exact absurd List.nil_prefix h
  | cons n p ih =>
    match o with
    | none => simp [alterO]
    | some (.file _ _) => simp [alterO]
    | some (.symlink _) => simp [alterO]
    | some (.dir m es) =>
      cases q with
      | nil => simp [alterO, getO, Node.entry]
      | cons k q =>
        simp only [alterO, getO]
        by_cases hk : k = n
        · subst hk
          rw [lookup_alterEntries_self]
          apply ih
          intro hpq
          exact h ((List.prefix_cons_inj k).2 hpq)
        · rw [lookup_alterEntries_ne es n k _ hk]

theorem alterO_isSome (c : Node) (p : Path) (f : Option Node → Option Node)
    (hp : p ≠ []) : alterO (some c) p f = some ((alterO (some c) p f).getD c) := by
  cases p with
  | nil => exact absurd rfl hp
  | cons n p => cases c <;> simp [alterO]

theorem resolve_ok_iff (root : Node) (p : Path) (c : Node) :
    resolve root p = .ok c ↔ getO (some root) p = some c := by
  induction p generalizing root with
  | nil => simp [resolve, getO]
  | cons n p ih =>
    cases root with
    | file m d => simp [resolve, getO]
    | symlink t => simp [resolve, getO]
    | dir m es =>
      simp only [resolve, getO]
      cases hl : es.lookup n with
      | none => simp [getO_none]
      | some c' => simpa using ih c'

theorem resolve_error (root : Node) (p : Path) (e : Errno)
    (h : resolve root p = .error e) : getO (some root) p = none := by
  cases hg : getO (some root) p with
  | none => rfl
  | some c => rw [(resolve_ok_iff root p c).2 hg] at h; cases h

theorem FS.get_append (fs : FS) (p r : Path) : fs.get (p ++ r) = getO (fs.get p) r :=
  getO_append _ _ _

theorem getO_cons_some (o : Option Node) (n : Name) (r : Path) (c : Node)
    (h : getO o (n :: r) = some c) : ∃ m es, o = some (.dir m es) := by
  match o, h with
  | some (.dir m es), _ => exact ⟨m, es, rfl⟩

theorem look_eq_none (fs : FS) (p : Path) : fs.look p = none ↔ fs.get p = none := by
  simp [FS.look]

theorem look_eq_file (fs : FS) (p : Path) (m : FileMode) (d : Bytes) :
    fs.look p = some (.file m d) ↔ fs.get p = some (.file m d) := by
  unfold FS.look
  cases fs.get p with
  | none => simp
  | some c => cases c <;> simp [Node.entry]

theorem look_eq_dir (fs : FS) (p : Path) (m : FileMode) :
    fs.look p = some (.dir m) ↔ ∃ es, fs.get p = some (.dir m es) := by
  unfold FS.look
  cases fs.get p with
  | none =>
    constructor
    · intro h; cases h
    · rintro ⟨es, h⟩; cases h
  | some c =>
    cases c with
    | file m' d =>
      constructor
      · intro h; simp [Node.entry] at h
      · rintro ⟨es, h⟩; cases h
    | symlink t =>
      constructor
      · intro h; simp [Node.entry] at h
      · rintro ⟨es, h⟩; cases h
    | dir m' es' =>
      constructor
      · intro h
        simp only [Option.map_some', Node.entry, Option.some.injEq, Entry.dir.injEq] at h
        exact ⟨es', by rw [h]⟩
      · rintro ⟨es, h⟩
        cases h
        rfl

theorem look_eq_symlink (fs : FS) (p : Path) (t : Str) :
    fs.look p = some (.symlink t) ↔ fs.get p = some (.symlink t) := by
  unfold FS.look
  cases fs.get p with
  | none => simp
  | some c => cases c <;> simp [Node.entry]

/-- What exists below a path exists below a directory. -/
theorem look_parent_dir (fs : FS) (p r : Path) (hr : r ≠ [])
    (h : fs.look (p ++ r) ≠ none) : ∃ m, fs.look p = some (.dir m) := by
  cases r with
  | nil => exact absurd rfl hr
  | cons n r =>
    rw [Ne, look_eq_none, FS.get_append] at h
    obtain ⟨c, hc⟩ := Option.ne_none_iff_exists'.1 h
    obtain ⟨m, es, hd⟩ := getO_cons_some _ _ _ _ hc
    exact ⟨m, (look_eq_dir fs p m).2 ⟨es, hd⟩⟩

theorem look_below_none (fs : FS) (p r : Path) (h : fs.look p = none) :
    fs.look (p ++ r) = none := by
  rw [look_eq_none] at h ⊢
  rw [FS.get_append, h, getO_none]

/-- Below anything that is not a directory there is nothing. -/
theorem look_below_not_dir (fs : FS) (p r : Path) (hr : r ≠ [])
    (h : ∀ m, fs.look p ≠ some (.dir m)) : fs.look (p ++ r) = none := by
  by_contra hne
  obtain ⟨m, hm⟩ := look_parent_dir fs p r hr hne
  exact h m hm

theorem look_of_prefix_dir (fs : FS) (p q : Path) (hpq : p <+: q)
    (h : fs.look q ≠ none) : p = q ∨ ∃ m, fs.look p = some (.dir m) := by
  obtain ⟨r, rfl⟩ := hpq
  by_cases hr : r = []
  · left; simp [hr]
  · right; exact look_parent_dir fs p r hr h

theorem FS.alter_root (fs : FS) (p : Path) (f : Option Node → Option Node) (hp : p ≠ []) :
    some (fs.alter p f).root = alterO (some fs.root) p f := by
  simp only [FS.alter]
  exact (alterO_isSome fs.root p f hp).symm

/-- Altering at `p` leaves every entry that is not at or below `p`. -/
theorem look_alter_frame (fs : FS) (p q : Path) (f : Option Node → Option Node)
    (h : ¬ p <+: q) : (fs.alter p f).look q = fs.look q := by
  have hp : p ≠ [] := by
    rintro rfl
    exact h List.nil_prefix
  unfold FS.look FS.get
  rw [FS.alter_root fs p f hp]
  exact entry_getO_alterO _ _ _ _ h

/-- Altering at `p ++ [n]` below a directory `p` puts there what `f` gives. -/
theorem get_alter_below (fs : FS) (p : Path) (n : Name) (f : Option Node → Option Node)
    (r : Path) (m : FileMode) (h : fs.look p = some (.dir m)) :
    (fs.alter (p ++ [n]) f).get (p ++ [n] ++ r) = getO (f (fs.get (p ++ [n]))) r := by
  obtain ⟨es, hes⟩ := (look_eq_dir fs p m).1 h
  unfold FS.get
  rw [FS.alter_root fs _ f (by simp)]
  exact getO_alterO_below _ _ _ _ _ m es hes

theorem Stat_ok_file (fs : FS) (p : Path) (m : FileMode) :
    Stat fs p = .ok ⟨false, m⟩ ↔ ∃ d, fs.look p = some (.file m d) := by
  unfold Stat
  cases hr : resolve fs.root p with
  | error e =>
    have := resolve_error _ _ _ hr
    simp [FS.look, FS.get, this]
  | ok c =>
    have hg := (resolve_ok_iff _ _ _).1 hr
    cases c <;> simp [FS.look, FS.get, hg, Node.entry]

theorem Stat_ok_dir (fs : FS) (p : Path) (m : FileMode) :
    Stat fs p = .ok ⟨true, m⟩ ↔ fs.look p = some (.dir m) := by
  unfold Stat
  cases hr : resolve fs.root p with
  | error e =>
    have := resolve_error _ _ _ hr
    simp [FS.look, FS.get, this]
  | ok c =>
    have hg := (resolve_ok_iff _ _ _).1 hr
    cases c <;> simp [FS.look, FS.get, hg, Node.entry]

theorem Stat_error (fs : FS) (p : Path) (e : PathError) (h : Stat fs p = .error e) :
    ∀ m, fs.look p ≠ some (.dir m) ∧ ∀ d, fs.look p ≠ some (.file m d) := by
  intro m
  constructor
  · intro hd
    rw [(Stat_ok_dir fs p m).2 hd] at h
    cases h
  · intro d hd
    rw [(Stat_ok_file fs p m).2 ⟨d, hd⟩] at h
    cases h

/-! ## What the system calls do to the entries -/

theorem dropLast_append_getLast' (p : Path) (hp : p ≠ []) :
    p.dropLast ++ [p.getLast hp] = p :=
  List.dropLast_append_getLast hp

/-- Altering at `p`, whose parent is a directory: what is seen at and below
`p` afterwards. -/
theorem look_alter_at (fs : FS) (p : Path) (f : Option Node → Option Node) (hp : p ≠ [])
    (m : FileMode) (hd : fs.look p.dropLast = some (.dir m)) (r : Path) :
    (fs.alter p f).look (p ++ r) = (getO (f (fs.get p)) r).map Node.entry := by
  have h := get_alter_below fs p.dropLast (p.getLast hp) f r m hd
  rw [dropLast_append_getLast' p hp] at h
  unfold FS.look
  rw [h]

/-- The parent of a path that exists is a directory. -/
theorem look_dropLast_dir (fs : FS) (p : Path) (hp : p ≠ []) (h : fs.look p ≠ none) :
    ∃ m, fs.look p.dropLast = some (.dir m) := by
  apply look_parent_dir fs p.dropLast [p.getLast hp] (by simp)
  rw [dropLast_append_getLast' p hp]
  exact h

/-- Replacing what is at `p` by a leaf, where no directory stood: all other
entries stay. -/
theorem look_alter_leaf (fs : FS) (p : Path) (f : Option Node → Option Node) (hp : p ≠ [])
    (m : FileMode) (hd : fs.look p.dropLast = some (.dir m))
    (hbefore : ∀ m', fs.look p ≠ some (.dir m'))
    (hafter : ∀ r, r ≠ [] → getO (f (fs.get p)) r = none)
    (q : Path) (hq : q ≠ p) : (fs.alter p f).look q = fs.look q := by
  by_cases hpq : p <+: q
  · obtain ⟨r, rfl⟩ := hpq
    have hr : r ≠ [] := by
      rintro rfl
      exact hq (by simp)
    rw [look_alter_at fs p f hp m hd r, hafter r hr, look_below_not_dir fs p r hr hbefore]
    rfl
  · exact look_alter_frame fs p q f hpq

theorem getO_leaf_dir_nil (m : FileMode) (r : Path) (hr : r ≠ []) :
    getO (some (.dir m [])) r = none := by
  cases r with
  | nil => exact absurd rfl hr
  | cons n r => simp [getO, getO_none]

theorem getO_leaf_file (m : FileMode) (d : Bytes) (r : Path) (hr : r ≠ []) :
    getO (some (.file m d)) r = none := by
  cases r with
  | nil => exact absurd rfl hr
  | cons n r => simp [getO]

theorem getO_leaf_symlink (t : Str) (r : Path) (hr : r ≠ []) :
    getO (some (.symlink t)) r = none := by
  cases r with
  | nil => exact absurd rfl hr
  | cons n r => simp [getO]

theorem resolve_nil_ne_error (root : Node) (e : Errno) : resolve root [] ≠ .error e := by
  simp [resolve]

theorem look_of_resolve_dir (fs : FS) (p : Path) (m : FileMode) (es : List (Name × Node))
    (h : resolve fs.root p = .ok (.dir m es)) : fs.look p = some (.dir m) :=
  (look_eq_dir fs p m).2 ⟨es, (resolve_ok_iff _ _ _).1 h⟩

theorem look_of_resolve_error (fs : FS) (p : Path) (e : Errno)
    (h : resolve fs.root p = .error e) : fs.look p = none :=
  (look_eq_none fs p).2 (resolve_error _ _ _ h)

/-- A successful `Mkdir`: the path was missing, is a directory now, and all
other entries stay. -/
theorem Mkdir_ok (fs fs' : FS) (p : Path) (perm : FileMode)
    (h : Mkdir fs p perm = (none, fs')) :
    fs.look p = none ∧ (∃ m, fs'.look p = some (.dir m)) ∧
      (∀ q, q ≠ p → fs'.look q = fs.look q) ∧ fs'.umask = fs.umask := by
  unfold Mkdir at h
  split at h
  · simp at h
  · rename_i he
    have hp : p ≠ [] := by
      rintro rfl
      exact resolve_nil_ne_error _ _ he
    have hnone := look_of_resolve_error fs p _ he
    split at h
    · rename_i m es hd
      have hdir := look_of_resolve_dir fs _ m es hd
      simp only [Prod.mk.injEq, true_and] at h
      subst h
      refine ⟨hnone, ⟨clearBits perm fs.umask, ?_⟩, ?_, rfl⟩
      · have := look_alter_at fs p (fun _ => some (.dir (clearBits perm fs.umask) []))
          hp m hdir []
        simpa [getO, Node.entry] using this
      · intro q hq
        apply look_alter_leaf fs p _ hp m hdir _ _ q hq
        · intro m'; rw [hnone]; simp
        · intro r hr; exact getO_leaf_dir_nil _ r hr
    · simp at h
  · simp at h

/-- Replacing the file at `p` by a file: only the entry at `p` changes. -/
theorem look_alter_file (fs : FS) (p : Path) (f : Option Node → Option Node)
    (m m' : FileMode) (d d' : Bytes) (hfile : fs.look p = some (.file m d))
    (hf : f (some (.file m d)) = some (.file m' d')) :
    (fs.alter p f).look p = some (.file m' d') ∧
      ∀ q, q ≠ p → (fs.alter p f).look q = fs.look q := by
  have hget := (look_eq_file fs p m d).1 hfile
  by_cases hp : p = []
  · subst hp
    have hroot : fs.root = .file m d := by
      simpa [FS.get, getO] using hget
    constructor
    · simp [FS.alter, FS.look, FS.get, getO, alterO, hroot, hf, Node.entry]
    · intro q hq
      cases q with
      | nil => exact absurd rfl hq
      | cons n q => simp [FS.alter, FS.look, FS.get, getO, alterO, hroot, hf]
  · obtain ⟨md, hd⟩ := look_dropLast_dir fs p hp (by rw [hfile]; simp)
    constructor
    · have := look_alter_at fs p f hp md hd []
      simpa [hget, hf, getO, Node.entry] using this
    · intro q hq
      apply look_alter_leaf fs p f hp md hd _ _ q hq
      · intro m''; rw [hfile]; simp
      · intro r hr; rw [hget, hf]; exact getO_leaf_file _ _ r hr

/-- Putting a leaf at a missing path `p` below a directory: only the entry at
`p` changes. -/
theorem look_alter_new (fs : FS) (p : Path) (c : Node) (e : Errno) (m : FileMode)
    (es : List (Name × Node)) (he : resolve fs.root p = .error e)
    (hd : resolve fs.root p.dropLast = .ok (.dir m es))
    (hleaf : ∀ r, r ≠ [] → getO (some c) r = none) :
    fs.look p = none ∧ (fs.alter p (fun _ => some c)).look p = some c.entry ∧
      ∀ q, q ≠ p → (fs.alter p (fun _ => some c)).look q = fs.look q := by
  have hp : p ≠ [] := by
    rintro rfl
    exact resolve_nil_ne_error _ _ he
  have hnone := look_of_resolve_error fs p _ he
  have hdir := look_of_resolve_dir fs _ m es hd
  refine ⟨hnone, ?_, ?_⟩
  · have := look_alter_at fs p (fun _ => some c) hp m hdir []
    simpa [getO] using this
  · intro q hq
    apply look_alter_leaf fs p _ hp m hdir _ _ q hq
    · intro m'; rw [hnone]; simp
    · intro r hr; exact hleaf r hr

/-- A successful `Create`: an empty file stands at the path, and all other
entries stay. -/
theorem Create_ok (fs fs' : FS) (p : Path) (h : Create fs p = (none, fs')) :
    (∃ m, fs'.look p = some (.file m [])) ∧ (∀ q, q ≠ p → fs'.look q = fs.look q) := by
  unfold Create at h
  split at h
  · rename_i m d hr
    have hfile : fs.look p = some (.file m d) :=
      (look_eq_file fs p m d).2 ((resolve_ok_iff _ _ _).1 hr)
    simp only [Prod.mk.injEq, true_and] at h
    subst h
    have := look_alter_file fs p (fun _ => some (.file m [])) m m d [] hfile rfl
    exact ⟨⟨m, this.1⟩, this.2⟩
  · simp at h
  · simp at h
  · rename_i he
    split at h
    · rename_i m es hd
      simp only [Prod.mk.injEq, true_and] at h
      subst h
      have := look_alter_new fs p (.file (clearBits 0o666 fs.umask) []) _ m es he hd
        (fun r hr => getO_leaf_file _ _ r hr)
      exact ⟨⟨_, this.2.1⟩, this.2.2⟩
    · simp at h
  · simp at h

/-- `Chmod` on a regular file sets its mode and nothing else. -/
theorem Chmod_file (fs : FS) (f : Path) (mode m : FileMode) (d : Bytes)
    (hfile : fs.look f = some (.file m d)) :
    (Chmod fs f mode).1 = none ∧ (Chmod fs f mode).2.look f = some (.file mode d) ∧
      ∀ q, q ≠ f → (Chmod fs f mode).2.look q = fs.look q := by
  have := look_alter_file fs f (fun o =>
    match o with
    | some (.file _ d) => some (.file mode d)
    | other => other) m mode d d hfile rfl
  exact ⟨rfl, this.1, this.2⟩

/-- A successful `CopyBuffer`: the source is a regular file, and its bytes
are appended to the destination file. -/
theorem CopyBuffer_ok (fs fs' : FS) (dst src : Path)
    (h : CopyBuffer fs dst src = (none, fs')) :
    ∃ ms data, fs.look src = some (.file ms data) ∧
      (∀ m d, fs.look dst = some (.file m d) →
        fs'.look dst = some (.file m (d ++ data)) ∧
        ∀ q, q ≠ dst → fs'.look q = fs.look q) := by
  unfold CopyBuffer at h
  split at h
  · rename_i ms data hsrc
    simp only [Prod.mk.injEq, true_and] at h
    subst h
    refine ⟨ms, data, (look_eq_file fs src ms data).2 hsrc, ?_⟩
    intro m d hdst
    exact look_alter_file fs dst _ m m d (d ++ data) hdst rfl
  · simp at h

/-- A successful `RemoveAll`: the path and all below it are gone, all other
entries stay. -/
theorem RemoveAll_ok (fs fs' : FS) (p : Path) (h : RemoveAll fs p = (none, fs')) (q : Path) :
    fs'.look q = if p <+: q then none else fs.look q := by
  unfold RemoveAll at h
  split at h
  · rename_i c hr
    split at h
    · injection h with h1 h2
      cases h1
    · rename_i hp
      simp only [Prod.mk.injEq, true_and] at h
      subst h
      have hex : fs.look p ≠ none := by
        rw [Ne, look_eq_none, FS.get, (resolve_ok_iff _ _ _).1 hr]; simp
      obtain ⟨m, hd⟩ := look_dropLast_dir fs p hp hex
      by_cases hpq : p <+: q
      · obtain ⟨r, rfl⟩ := hpq
        rw [look_alter_at fs p _ hp m hd r]
        simp [getO_none]
      · rw [if_neg hpq]
        exact look_alter_frame fs p q _ hpq
  · rename_i he
    simp only [Prod.mk.injEq, true_and] at h
    subst h
    by_cases hpq : p <+: q
    · obtain ⟨r, rfl⟩ := hpq
      simp [look_below_none fs p r (look_of_resolve_error fs p _ he)]
    · rw [if_neg hpq]
  · simp at h

/-- A successful `Symlink`: the path was missing, is a link to the given
target now, and all other entries stay. -/
theorem Symlink_ok (fs fs' : FS) (t : Str) (p : Path) (h : Symlink fs t p = (none, fs')) :
    fs.look p = none ∧ fs'.look p = some (.symlink t) ∧
      ∀ q, q ≠ p → fs'.look q = fs.look q := by
  unfold Symlink at h
  split at h
  · simp at h
  · rename_i he
    split at h
    · rename_i m es hd
      simp only [Prod.mk.injEq, true_and] at h
      subst h
      exact look_alter_new fs p (.symlink t) _ m es he hd
        (fun r hr => getO_leaf_symlink _ r hr)
    · simp at h
  · simp at h

/-- A successful `copyFile` between two different paths: the source is a
regular file, the destination is a regular file with the same mode and the
same bytes, and no other entry changes. -/
theorem copyFile_ok (fs fs' : FS) (source dest : Path) (hne : source ≠ dest)
    (h : copyFile fs source dest = (none, fs')) :
    ∃ m d, fs.look source = some (.file m d) ∧ fs'.look dest = some (.file m d) ∧
      ∀ q, q ≠ dest → fs'.look q = fs.look q := by
  unfold copyFile at h
  split at h
  · simp at h
  · rename_i srcFile hopen
    have hsrc : srcFile = source := by
      unfold Open at hopen
      split at hopen
      · simp at hopen
      · simp at hopen; exact hopen.symm
      · simp at hopen
    subst hsrc
    split at h
    · simp at h
    · rename_i srcInfo hstat
      split at h
      · simp at h
      · rename_i fs1 hcreate
        obtain ⟨⟨m1, hc1⟩, hc2⟩ := Create_ok fs fs1 dest hcreate
        obtain ⟨_, hm1, hm2⟩ := Chmod_file fs1 dest srcInfo.mode m1 [] hc1
        split at h
        · rename_i e fs2 hchmod
          simp [Chmod] at hchmod
        · rename_i fs2 hchmod
          have hfs2 : fs2 = (Chmod fs1 dest srcInfo.mode).2 := by rw [hchmod]
          obtain ⟨ms, data, hdata, hcopy⟩ := CopyBuffer_ok fs2 fs' dest srcFile h
          obtain ⟨hd1, hd2⟩ := hcopy srcInfo.mode [] (by rw [hfs2]; exact hm1)
          have hsame : fs2.look srcFile = fs.look srcFile := by
            rw [hfs2, hm2 _ hne, hc2 _ hne]
          rw [hsame] at hdata
          have hmode : srcInfo.mode = ms := by
            unfold fileStat at hstat
            split at hstat
            · rename_i info hst
              simp only [Except.ok.injEq] at hstat
              subst hstat
              cases hi : info.isDir with
              | true =>
                have : info = ⟨true, info.mode⟩ := by rw [← hi]
                rw [this] at hst
                rw [(Stat_ok_dir fs srcFile _).1 hst] at hdata
                cases hdata
              | false =>
                have : info = ⟨false, info.mode⟩ := by rw [← hi]
                rw [this] at hst
                obtain ⟨d0, hd0⟩ := (Stat_ok_file fs srcFile _).1 hst
                rw [hd0] at hdata
                cases hdata
                rfl
            · simp at hstat
          refine ⟨ms, data, hdata, ?_, ?_⟩
          · rw [hd1, hmode]; rfl
          · intro q hq
            rw [hd2 q hq, hfs2, hm2 q hq, hc2 q hq]

theorem Stat_ok_look (fs : FS) (p : Path) (info : FileInfo) (h : Stat fs p = .ok info) :
    (info.isDir = true ∧ fs.look p = some (.dir info.mode)) ∨
    (info.isDir = false ∧ ∃ d, fs.look p = some (.file info.mode d)) := by
  cases hi : info.isDir with
  | true =>
    have : info = ⟨true, info.mode⟩ := by rw [← hi]
    rw [this] at h
    exact Or.inl ⟨rfl, (Stat_ok_dir fs p _).1 h⟩
  | false =>
    have : info = ⟨false, info.mode⟩ := by rw [← hi]
    rw [this] at h
    exact Or.inr ⟨rfl, (Stat_ok_file fs p _).1 h⟩

/-- The loop of `MkdirAll`, when it succeeds: every path `done ++ t` for a
non-empty prefix `t` of `todo` is a directory afterwards, entries that existed
stay, and only those paths can be new. -/
theorem mkdirAllLoop_ok (perm : FileMode) (todo : Path) :
    ∀ (fs fs' : FS) (done : Path), mkdirAllLoop perm fs done todo = (none, fs') →
      (∀ t, t <+: todo → t ≠ [] → ∃ m, fs'.look (done ++ t) = some (.dir m)) ∧
      (∀ q, fs.look q ≠ none → fs'.look q = fs.look q) ∧
      (∀ q, ¬ (done <+: q ∧ q <+: done ++ todo ∧ q ≠ done) → fs'.look q = fs.look q) ∧
      fs'.umask = fs.umask := by
  induction todo with
  | nil =>
    intro fs fs' done h
    simp only [mkdirAllLoop, Prod.mk.injEq, true_and] at h
    subst h
    refine ⟨?_, fun _ _ => rfl, fun _ _ => rfl, rfl⟩
    intro t ht hne
    exact absurd (List.prefix_nil.1 ht) hne
  | cons n rest ih =>
    intro fs fs' done h
    unfold mkdirAllLoop at h
    -- the state in which the loop goes on, and what it keeps of `fs`
    have key : ∀ fs1 : FS, mkdirAllLoop perm fs1 (done ++ [n]) rest = (none, fs') →
        (∃ m, fs1.look (done ++ [n]) = some (.dir m)) →
        (∀ q, fs.look q ≠ none → fs1.look q = fs.look q) →
        (∀ q, q ≠ done ++ [n] → fs1.look q = fs.look q) →
        fs1.umask = fs.umask →
        (∀ t, t <+: n :: rest → t ≠ [] → ∃ m, fs'.look (done ++ t) = some (.dir m)) ∧
        (∀ q, fs.look q ≠ none → fs'.look q = fs.look q) ∧
        (∀ q, ¬ (done <+: q ∧ q <+: done ++ n :: rest ∧ q ≠ done) →
          fs'.look q = fs.look q) ∧
        fs'.umask = fs.umask := by
      intro fs1 hloop hdir hkeep hother hum
      obtain ⟨h1, h2, h3, h4⟩ := ih fs1 fs' (done ++ [n]) hloop
      refine ⟨?_, ?_, ?_, h4.trans hum⟩
      · intro t ht hne
        cases t with
        | nil => exact absurd rfl hne
        | cons k t =>
          obtain ⟨rfl, ht'⟩ := List.cons_prefix_cons.1 ht
          by_cases htn : t = []
          · subst htn
            obtain ⟨m, hm⟩ := hdir
            exact ⟨m, by rw [h2 _ (by rw [hm]; simp), hm]⟩
          · obtain ⟨m, hm⟩ := h1 t ht' htn
            exact ⟨m, by simpa using hm⟩
      · intro q hq
        have := hkeep q hq
        rw [h2 q (by rw [this]; exact hq), this]
      · intro q hq
        have hq1 : q ≠ done ++ [n] := by
          rintro rfl
          exact hq ⟨List.prefix_append _ _,
            (List.prefix_append_right_inj done).2 ⟨rest, rfl⟩, by simp⟩
        rw [← hother q hq1]
        apply h3
        rintro ⟨ha, hb, hc⟩
        apply hq
        refine ⟨(List.prefix_append _ _).trans ha, by simpa using hb, ?_⟩
        rintro rfl
        have := ha.length_le
        simp at this
    split at h
    · rename_i info hstat
      split at h
      · rename_i hisdir
        rcases Stat_ok_look fs _ info hstat with ⟨_, hd⟩ | ⟨hf, _⟩
        · exact key fs h ⟨_, hd⟩ (fun _ _ => rfl) (fun _ _ => rfl) rfl
        · rw [hf] at hisdir; cases hisdir
      · simp at h
    · split at h
      · rename_i fs1 hmk
        obtain ⟨hnone, hdir, hother, hum⟩ := Mkdir_ok fs fs1 _ perm hmk
        apply key fs1 h hdir _ hother hum
        intro q hq
        apply hother
        rintro rfl
        exact hq hnone
      · simp at h

/-- A successful `MkdirAll`: the path is a directory afterwards, entries that
existed stay, and only prefixes of the path can be new. -/
theorem MkdirAll_ok (fs fs' : FS) (p : Path) (perm : FileMode)
    (h : MkdirAll fs p perm = (none, fs')) :
    (p ≠ [] → ∃ m, fs'.look p = some (.dir m)) ∧
    (∀ q, fs.look q ≠ none → fs'.look q = fs.look q) ∧
    (∀ q, ¬ q <+: p → fs'.look q = fs.look q) ∧
    fs'.umask = fs.umask := by
  obtain ⟨h1, h2, h3, h4⟩ := mkdirAllLoop_ok perm p fs fs' [] h
  refine ⟨?_, h2, ?_, h4⟩
  · intro hp
    simpa using h1 p (List.prefix_refl p) hp
  · intro q hq
    apply h3
    rintro ⟨_, hb, _⟩
    exact hq (by simpa using hb)

theorem lookup_ne_none_iff (es : List (Name × Node)) (n : Name) :
    es.lookup n ≠ none ↔ n ∈ es.map Prod.fst := by
  induction es with
  | nil => simp
  | cons e es ih =>
    obtain ⟨k, v⟩ := e
    by_cases hk : n = k
    · subst hk; simp
    · have hb : (n == k) = false := by simpa using hk
      simp [List.lookup_cons, hb, ih, hk]

theorem mem_listDir (es : List (Name × Node)) (e : DirEntry) :
    e ∈ listDir es ↔ es.lookup e.name ≠ none ∧ e.isDir = isDirNode (es.lookup e.name) := by
  unfold listDir
  rw [List.mem_map]
  constructor
  · rintro ⟨n, hn, rfl⟩
    rw [List.mem_insertionSort, List.mem_dedup] at hn
    exact ⟨(lookup_ne_none_iff es n).2 hn, rfl⟩
  · rintro ⟨h1, h2⟩
    refine ⟨e.name, ?_, ?_⟩
    · rw [List.mem_insertionSort, List.mem_dedup]
      exact (lookup_ne_none_iff es _).1 h1
    · cases e
      simp only [DirEntry.mk.injEq, true_and]
      exact h2.symm

theorem listDir_nodup (es : List (Name × Node)) :
    ((listDir es).map DirEntry.name).Nodup := by
  unfold listDir
  rw [List.map_map]
  have : (DirEntry.name ∘ fun n => (⟨n, isDirNode (es.lookup n)⟩ : DirEntry)) = id := rfl
  rw [this, List.map_id]
  exact (List.perm_insertionSort _ _).nodup_iff.2 (List.nodup_dedup _)

theorem isDirNode_iff (o : Option Node) :
    isDirNode o = true ↔ ∃ m, o.map Node.entry = some (.dir m) := by
  match o with
  | none => simp [isDirNode]
  | some (.file _ _) => simp [isDirNode, Node.entry]
  | some (.symlink _) => simp [isDirNode, Node.entry]
  | some (.dir m _) => simp [isDirNode, Node.entry]

/-- A successful `ReadDir`: the path is a directory, the names listed are
distinct, and an entry is listed exactly when something stands at that name,
flagged as a directory exactly when it is one. -/
theorem ReadDir_ok (fs : FS) (p : Path) (entries : List DirEntry)
    (h : ReadDir fs p = .ok entries) :
    (∃ m, fs.look p = some (.dir m)) ∧ (entries.map DirEntry.name).Nodup ∧
    ∀ e, e ∈ entries ↔ (fs.look (p ++ [e.name]) ≠ none ∧
      (e.isDir = true ↔ ∃ m, fs.look (p ++ [e.name]) = some (.dir m))) := by
  unfold ReadDir at h
  split at h
  · rename_i m es hr
    simp only [Except.ok.injEq] at h
    subst h
    have hget : fs.get p = some (.dir m es) := (resolve_ok_iff _ _ _).1 hr
    have hchild : ∀ n, fs.get (p ++ [n]) = es.lookup n := by
      intro n
      rw [FS.get_append, hget]
      simp [getO]
    refine ⟨⟨m, look_of_resolve_dir fs p m es hr⟩, listDir_nodup es, ?_⟩
    intro e
    have hlook : fs.look (p ++ [e.name]) = (es.lookup e.name).map Node.entry := by
      unfold FS.look
      rw [hchild]
    have hnone : (es.lookup e.name).map Node.entry ≠ none ↔ es.lookup e.name ≠ none := by
      simp
    rw [mem_listDir, hlook, hnone]
    constructor
    · rintro ⟨h1, h2⟩
      exact ⟨h1, by rw [h2, isDirNode_iff]⟩
    · rintro ⟨h1, h2⟩
      refine ⟨h1, ?_⟩
      rw [← isDirNode_iff] at h2
      cases hb : e.isDir with
      | true => exact (h2.1 hb).symm
      | false =>
        cases hd : isDirNode (es.lookup e.name) with
        | false => rfl
        | true => rw [h2.2 hd] at hb; cases hb
  · simp at h
  · simp at h

/-! ## The copy engine -/

/-- Two prefixes of one path are comparable. -/
theorem prefix_comparable {a b c : Path} (ha : a <+: c) (hb : b <+: c) :
    a <+: b ∨ b <+: a := by
  rcases Nat.le_total a.length b.length with h | h
  · exact Or.inl (List.prefix_of_prefix_length_le ha hb h)
  · exact Or.inr (List.prefix_of_prefix_length_le hb ha h)

/-- Nothing below `d` lies at or above something below `s` when neither of
`s` and `d` is a prefix of the other. -/
theorem not_prefix_of_disjoint {s d : Path} (hsd : ¬ s <+: d) (hds : ¬ d <+: s)
    (x y : Path) : ¬ (d ++ x) <+: (s ++ y) := by
  intro h
  rcases prefix_comparable ((List.prefix_append d x).trans h) (List.prefix_append s y) with
    h1 | h1
  · exact hds h1
  · exact hsd h1

theorem prefix_concat_cases {q d : Path} {n : Name} (h : q <+: d ++ [n]) :
    q = d ++ [n] ∨ q <+: d := by
  rcases Nat.lt_or_ge q.length (d ++ [n]).length with hl | hl
  · right
    apply List.prefix_of_prefix_length_le h (List.prefix_append d [n])
    simp at hl
    omega
  · left
    exact List.IsPrefix.eq_of_length_le h hl

/-- `copyFile` between different paths makes a copy in the sense of
`Copied`. -/
theorem copyFile_Copied (fs fs' : FS) (s d : Path) (hne : s ≠ d)
    (h : copyFile fs s d = (none, fs')) : Copied fs fs' s d := by
  obtain ⟨m, c, hsrc, hdst, hframe⟩ := copyFile_ok fs fs' s d hne h
  have hbelow : ∀ r, r ≠ [] → fs.look (s ++ r) = none := by
    intro r hr
    apply look_below_not_dir fs s r hr
    intro m'; rw [hsrc]; simp
  refine ⟨?_, ?_, ?_⟩
  · intro q hq _
    apply hframe
    rintro rfl
    exact hq (List.prefix_refl _)
  · intro r m' c' hr
    by_cases hnil : r = []
    · subst hnil
      simp only [List.append_nil] at hr ⊢
      rw [hsrc] at hr
      rw [hdst, hr]
    · rw [hbelow r hnil] at hr; cases hr
  · intro r m' hr
    by_cases hnil : r = []
    · subst hnil
      simp only [List.append_nil] at hr
      rw [hsrc] at hr; cases hr
    · rw [hbelow r hnil] at hr; cases hr

theorem concat_append (s : Path) (n : Name) (r : Path) : s ++ [n] ++ r = s ++ n :: r := by
  simp

theorem not_concat_prefix_self (d : Path) (n : Name) : ¬ (d ++ [n]) <+: d := by
  intro h
  have := h.length_le
  simp at this

/-- The loop over the directory entries, when it succeeds and every
recursive call makes a copy: the listed entries are copied, and nothing
changes outside their destinations. -/
theorem copyEntries_ok (recur : FS → Path → Path → Option PathError × FS) (s d : Path)
    (hsd : ¬ s <+: d) (hds : ¬ d <+: s)
    (hrec : ∀ fsa fsb n, recur fsa (s ++ [n]) (d ++ [n]) = (none, fsb) →
      Copied fsa fsb (s ++ [n]) (d ++ [n])) :
    ∀ (entries : List DirEntry) (fs fs' : FS),
      (entries.map DirEntry.name).Nodup →
      (∃ m, fs.look d = some (.dir m)) →
      copyEntries recur s d fs entries = (none, fs') →
      (∀ q, (∀ e ∈ entries, ¬ (d ++ [e.name]) <+: q) → fs'.look q = fs.look q) ∧
      (∀ e ∈ entries, ∀ r m c, fs.look (s ++ e.name :: r) = some (.file m c) →
        fs'.look (d ++ e.name :: r) = some (.file m c)) ∧
      (∀ e ∈ entries, ∀ r m, fs.look (s ++ e.name :: r) = some (.dir m) →
        ∃ m', fs'.look (d ++ e.name :: r) = some (.dir m')) := by
  intro entries
  induction entries with
  | nil =>
    intro fs fs' _ _ h
    simp only [copyEntries, Prod.mk.injEq, true_and] at h
    subst h
    exact ⟨fun _ _ => rfl, by simp, by simp⟩
  | cons entry es ih =>
    intro fs fs' hnd hd h
    have hne : s ++ [entry.name] ≠ d ++ [entry.name] := by
      intro heq
      exact hsd (by rw [List.append_left_inj] at heq; rw [heq])
    rw [List.map_cons, List.nodup_cons] at hnd
    have step : ∀ fs1, Copied fs fs1 (s ++ [entry.name]) (d ++ [entry.name]) →
        copyEntries recur s d fs1 es = (none, fs') →
        (∀ q, (∀ e ∈ entry :: es, ¬ (d ++ [e.name]) <+: q) → fs'.look q = fs.look q) ∧
        (∀ e ∈ entry :: es, ∀ r m c, fs.look (s ++ e.name :: r) = some (.file m c) →
          fs'.look (d ++ e.name :: r) = some (.file m c)) ∧
        (∀ e ∈ entry :: es, ∀ r m, fs.look (s ++ e.name :: r) = some (.dir m) →
          ∃ m', fs'.look (d ++ e.name :: r) = some (.dir m')) := by
      intro fs1 hc hrest
      obtain ⟨m0, hm0⟩ := hd
      have frame1 : ∀ q, ¬ (d ++ [entry.name]) <+: q → fs1.look q = fs.look q := by
        intro q hq
        apply hc.1 q hq
        by_cases hqd : q <+: d ++ [entry.name]
        · left
          rcases prefix_concat_cases hqd with rfl | hqd'
          · exact absurd (List.prefix_refl _) hq
          · rcases look_of_prefix_dir fs q d hqd' (by rw [hm0]; simp) with rfl | ⟨m, hm⟩
            · rw [hm0]; simp
            · rw [hm]; simp
        · exact Or.inr hqd
      have hd1 : ∃ m, fs1.look d = some (.dir m) :=
        ⟨m0, by rw [frame1 d (not_concat_prefix_self d _), hm0]⟩
      have hsrc : ∀ y, fs1.look (s ++ y) = fs.look (s ++ y) := fun y =>
        frame1 _ (not_prefix_of_disjoint hsd hds _ y)
      obtain ⟨f2, g2, k2⟩ := ih fs1 fs' hnd.2 hd1 hrest
      have hnew : ∀ r, ∀ e ∈ es, ¬ (d ++ [e.name]) <+: (d ++ entry.name :: r) := by
        intro r e he hpre
        rw [List.prefix_append_right_inj] at hpre
        obtain ⟨hname, _⟩ := List.cons_prefix_cons.1 hpre
        exact hnd.1 (by rw [← hname]; exact List.mem_map_of_mem _ he)
      refine ⟨?_, ?_, ?_⟩
      · intro q hq
        rw [f2 q (fun e he => hq e (List.mem_cons_of_mem _ he)),
          frame1 q (hq entry (List.mem_cons_self _ _))]
      · intro e he r m c hlook
        rcases List.mem_cons.1 he with rfl | he'
        · rw [f2 _ (hnew r)]
          have := hc.2.1 r m c (by rw [concat_append]; exact hlook)
          rwa [concat_append] at this
        · exact g2 e he' r m c (by rw [hsrc]; exact hlook)
      · intro e he r m hlook
        rcases List.mem_cons.1 he with rfl | he'
        · rw [f2 _ (hnew r)]
          have := hc.2.2 r m (by rw [concat_append]; exact hlook)
          rwa [concat_append] at this
        · exact k2 e he' r m (by rw [hsrc]; exact hlook)
    unfold copyEntries at h
    split at h
    · split at h
      · simp at h
      · rename_i fs1 hr
        exact step fs1 (hrec fs fs1 _ hr) h
    · split at h
      · simp at h
      · rename_i fs1 hr
        exact step fs1 (copyFile_Copied fs fs1 _ _ hne hr) h

theorem disjoint_concat {s d : Path} (hsd : ¬ s <+: d) (hds : ¬ d <+: s) (n : Name) :
    ¬ (s ++ [n]) <+: (d ++ [n]) ∧ ¬ (d ++ [n]) <+: (s ++ [n]) :=
  ⟨not_prefix_of_disjoint hds hsd [n] [n], not_prefix_of_disjoint hsd hds [n] [n]⟩

/-- A successful `copyDir` between two paths neither of which lies at or below
the other makes a copy in the sense of `Copied`. -/
theorem copyDir_Copied : ∀ (fuel : Nat) (fs fs' : FS) (s d : Path) (move : Bool),
    ¬ s <+: d → ¬ d <+: s → copyDir fuel fs s d move = (none, fs') →
    Copied fs fs' s d := by
  intro fuel
  induction fuel with
  | zero =>
    intro fs fs' s d move _ _ h
    simp [copyDir] at h
  | succ fuel ih =>
    intro fs fs' s d move hsd hds h
    unfold copyDir at h
    split at h
    · simp at h
    · rename_i srcInfo hstat
      split at h
      · simp at h
      · rename_i fs1 hmk
        obtain ⟨hmk1, hmk2, hmk3, _⟩ := MkdirAll_ok fs fs1 d _ hmk
        have hdne : d ≠ [] := by
          rintro rfl
          exact hds List.nil_prefix
        obtain ⟨md, hmd⟩ := hmk1 hdne
        have hsrc1 : ∀ y, fs1.look (s ++ y) = fs.look (s ++ y) := fun y =>
          hmk3 _ (fun hp => hsd ((List.prefix_append s y).trans hp))
        split at h
        · simp at h
        · rename_i entries hread
          obtain ⟨⟨ms, hms⟩, hnd, hmem⟩ := ReadDir_ok fs1 s entries hread
          have hrec : ∀ fsa fsb n,
              (fun fs2 s d => copyDir fuel fs2 s d false) fsa (s ++ [n]) (d ++ [n]) = (none, fsb) →
              Copied fsa fsb (s ++ [n]) (d ++ [n]) := fun fsa fsb n hr =>
            ih fsa fsb _ _ false (disjoint_concat hsd hds n).1 (disjoint_concat hsd hds n).2 hr
          obtain ⟨f2, g2, k2⟩ :=
            copyEntries_ok _ s d hsd hds hrec entries fs1 fs' hnd ⟨md, hmd⟩ h
          -- every name below the source is a listed entry
          have hlisted : ∀ n r, fs.look (s ++ n :: r) ≠ none →
              ∃ e ∈ entries, e.name = n := by
            intro n r hne
            have hchild : fs1.look (s ++ [n]) ≠ none := by
              rw [hsrc1]
              by_cases hr : r = []
              · subst hr; exact hne
              · obtain ⟨m, hm⟩ := look_parent_dir fs (s ++ [n]) r hr
                  (by rw [concat_append]; exact hne)
                rw [hm]; simp
            by_cases hdir : ∃ m, fs1.look (s ++ [n]) = some (.dir m)
            · exact ⟨⟨n, true⟩, (hmem ⟨n, true⟩).2 ⟨hchild, by simpa using hdir⟩, rfl⟩
            · exact ⟨⟨n, false⟩, (hmem ⟨n, false⟩).2 ⟨hchild, by simpa using hdir⟩, rfl⟩
          refine ⟨?_, ?_, ?_⟩
          · intro q hq hor
            rw [f2 q (fun e _ hp => hq ((List.prefix_append d _).trans hp))]
            rcases hor with hex | hnp
            · exact hmk2 q hex
            · exact hmk3 q hnp
          · intro r m c hlook
            cases r with
            | nil =>
              rw [List.append_nil, ← List.append_nil s, ← hsrc1, List.append_nil, hms] at hlook
              cases hlook
            | cons n r =>
              obtain ⟨e, he, rfl⟩ := hlisted n r (by rw [hlook]; simp)
              exact g2 e he r m c (by rw [hsrc1]; exact hlook)
          · intro r m hlook
            cases r with
            | nil =>
              refine ⟨md, ?_⟩
              rw [List.append_nil, f2 d (fun e _ => not_concat_prefix_self d _), hmd]
            | cons n r =>
              obtain ⟨e, he, rfl⟩ := hlisted n r (by rw [hlook]; simp)
              exact k2 e he r m (by rw [hsrc1]; exact hlook)

/-- The loop over the entries fails when one listed directory cannot be
copied, whatever the filesystem looks like when its turn comes. -/
theorem copyEntries_fails (recur : FS → Path → Path → Option PathError × FS)
    (s d : Path) (n : Name)
    (hfail : ∀ fs, (recur fs (s ++ [n]) (d ++ [n])).1 ≠ none) :
    ∀ (entries : List DirEntry) (fs : FS), ⟨n, true⟩ ∈ entries →
      (copyEntries recur s d fs entries).1 ≠ none := by
  intro entries
  induction entries with
  | nil => intro fs h; cases h
  | cons entry es ih =>
    intro fs hmem
    unfold copyEntries
    rcases List.mem_cons.1 hmem with rfl | hmem'
    · simp only [if_true]
      split
      · simp
      · rename_i fs1 hr
        exact absurd (by rw [hr]) (hfail fs)
    · split
      · split
        · simp
        · exact ih _ hmem'
      · split
        · simp
        · exact ih _ hmem'

/-- Copying a directory to a place strictly below itself never succeeds: the
destination directory is made first, so the source lists it and the copy
descends into its own output until the depth bound is hit. -/
theorem copyDir_into_itself : ∀ (fuel : Nat) (fs : FS) (s d : Path) (move : Bool),
    s <+: d → s ≠ d → (copyDir fuel fs s d move).1 ≠ none := by
  intro fuel
  induction fuel with
  | zero => intro fs s d move _ _; simp [copyDir]
  | succ fuel ih =>
    intro fs s d move hpre hne
    obtain ⟨t, rfl⟩ := hpre
    cases t with
    | nil => exact absurd (by simp) hne
    | cons n r =>
      unfold copyDir
      split
      · simp
      · split
        · simp
        · rename_i fs1 hmk
          obtain ⟨hmk1, _, _, _⟩ := MkdirAll_ok fs fs1 _ _ hmk
          obtain ⟨md, hmd⟩ := hmk1 (by simp)
          have hchild : ∃ m, fs1.look (s ++ [n]) = some (.dir m) := by
            by_cases hr : r = []
            · subst hr; exact ⟨md, hmd⟩
            · apply look_parent_dir fs1 (s ++ [n]) r hr
              rw [concat_append, hmd]; simp
          split
          · simp
          · rename_i entries hread
            obtain ⟨_, _, hmem⟩ := ReadDir_ok fs1 s entries hread
            have hin : (⟨n, true⟩ : DirEntry) ∈ entries := by
              apply (hmem ⟨n, true⟩).2
              obtain ⟨m, hm⟩ := hchild
              exact ⟨by rw [hm]; simp, by simp [hm]⟩
            apply copyEntries_fails _ s (s ++ n :: r) n _ entries fs1 hin
            intro fs2
            apply ih fs2 (s ++ [n]) (s ++ n :: r ++ [n]) false
            · rw [List.append_assoc, List.prefix_append_right_inj]
              exact ⟨r ++ [n], rfl⟩
            · intro heq
              have := congrArg List.length heq
              simp at this

theorem pair_of_fst_none {α : Type} (x : Option α × FS) (h : x.1 = none) :
    x = (none, x.2) := by
  rw [← h]

/-- A successful `fastCopy`: the source exists, neither path lies at or below
the other, the copy step leaves a copy (`fs1`), and in move mode the source
tree is then removed. -/
theorem fastCopy_ok (fuel : Nat) (fs fs' : FS) (s d : Path) (move : Bool)
    (h : fastCopy fuel fs s d move = (none, fs')) :
    fs.look s ≠ none ∧ ¬ s <+: d ∧ ¬ d <+: s ∧ ∃ fs1, Copied fs fs1 s d ∧
      ((move = false ∧ fs' = fs1) ∨
       (move = true ∧ ∀ q, fs'.look q = if s <+: q then none else fs1.look q)) := by
  unfold fastCopy at h
  split at h
  · simp at h
  · rename_i info hstat
    split at h
    · simp at h
    · rename_i e hdest
      have hsrc : fs.look s ≠ none := by
        rcases Stat_ok_look fs s info hstat with ⟨_, hl⟩ | ⟨_, _, hl⟩ <;> rw [hl] <;> simp
      have hdnot := Stat_error fs d e hdest
      have hsne : s ≠ d := by
        rintro rfl
        rw [hstat] at hdest
        cases hdest
      have hds : ¬ d <+: s := by
        intro hpre
        rcases look_of_prefix_dir fs d s hpre hsrc with heq | ⟨m, hm⟩
        · exact hsne heq.symm
        · exact (hdnot m).1 hm
      -- the removal of the source in move mode
      have hfinal : ∀ fs1 : FS,
          (if move = true then
            match RemoveAll fs1 s with
            | (some e, fs2) =>
              (some ("failed to remove source after move: ".toList ++ e.Error), fs2)
            | (none, fs2) => ((none : Option Error), fs2)
          else (none, fs1)) = (none, fs') →
          ((move = false ∧ fs' = fs1) ∨
           (move = true ∧ ∀ q, fs'.look q = if s <+: q then none else fs1.look q)) := by
        intro fs1 hfin
        cases move with
        | false =>
          simp only [Bool.false_eq_true, if_false, Prod.mk.injEq, true_and] at hfin
          exact Or.inl ⟨rfl, hfin.symm⟩
        | true =>
          simp only [if_true] at hfin
          split at hfin
          · simp at hfin
          · rename_i fs2 hrm
            simp only [Prod.mk.injEq, true_and] at hfin
            subst hfin
            exact Or.inr ⟨rfl, fun q => RemoveAll_ok fs1 fs2 s hrm q⟩
      cases hi : info.isDir with
      | true =>
        simp only [hi, if_true] at h
        cases hcd : copyDir fuel fs s d move with
        | mk err fs1 =>
          cases err with
          | some e1 => simp [hcd] at h
          | none =>
            simp only [hcd] at h
            have hsd : ¬ s <+: d := by
              intro hpre
              exact copyDir_into_itself fuel fs s d move hpre hsne (by rw [hcd])
            exact ⟨hsrc, hsd, hds, fs1, copyDir_Copied fuel fs fs1 s d move hsd hds hcd,
              hfinal fs1 h⟩
      | false =>
        simp only [hi, Bool.false_eq_true, if_false] at h
        cases hcf : copyFile fs s d with
        | mk err fs1 =>
          cases err with
          | some e1 => simp [hcf] at h
          | none =>
            simp only [hcf] at h
            obtain ⟨m, c, hfile, hdfile, hframe⟩ := copyFile_ok fs fs1 s d hsne hcf
            have hsd : ¬ s <+: d := by
              rintro ⟨r, rfl⟩
              have hr : r ≠ [] := by
                rintro rfl
                exact hsne (by simp)
              obtain ⟨m', hm'⟩ := look_parent_dir fs1 s r hr (by rw [hdfile]; simp)
              rw [hframe s hsne, hfile] at hm'
              cases hm'
            exact ⟨hsrc, hsd, hds, fs1, copyFile_Copied fs fs1 s d hsne hcf, hfinal fs1 h⟩

/-! ## Claims on the copy engine -/

/-- C4: if `fastCopy source dest true` returns no error, then afterwards
nothing exists at the source path or below it, every regular file the source
held before the call stands at the same relative path below the destination
with the same mode and bytes, and every directory of the source is a
directory below the destination. -/
theorem fastCopy_move (fuel : Nat) (fs : FS) (source dest : Path)
    (h : (fastCopy fuel fs source dest true).1 = none) :
    (∀ r, (fastCopy fuel fs source dest true).2.look (source ++ r) = none) ∧
    (∀ r m c, fs.look (source ++ r) = some (.file m c) →
      (fastCopy fuel fs source dest true).2.look (dest ++ r) = some (.file m c)) ∧
    (∀ r m, fs.look (source ++ r) = some (.dir m) →
      ∃ m', (fastCopy fuel fs source dest true).2.look (dest ++ r) = some (.dir m')) := by
  obtain ⟨_, hsd, hds, fs1, hcopied, hmv⟩ :=
    fastCopy_ok fuel fs _ source dest true (pair_of_fst_none _ h)
  rcases hmv with ⟨hf, _⟩ | ⟨_, hrm⟩
  · cases hf
  · have hkeep : ∀ r, (fastCopy fuel fs source dest true).2.look (dest ++ r) =
        fs1.look (dest ++ r) := by
      intro r
      rw [hrm, if_neg]
      have := not_prefix_of_disjoint hds hsd [] r
      simpa using this
    refine ⟨?_, ?_, ?_⟩
    · intro r
      rw [hrm, if_pos (List.prefix_append _ _)]
    · intro r m c hl
      rw [hkeep]
      exact hcopied.2.1 r m c hl
    · intro r m hl
      rw [hkeep]
      exact hcopied.2.2 r m hl

/-- C4 (witness): moving the directory `/a` with its file `f` to `/b`. -/
theorem fastCopy_move_witness :
    (fastCopy 2 exampleFS ["a".toList] ["b".toList] true).1 = none ∧
    (∀ r, (fastCopy 2 exampleFS ["a".toList] ["b".toList] true).2.look
      (["a".toList] ++ r) = none) ∧
    (fastCopy 2 exampleFS ["a".toList] ["b".toList] true).2.look
      ["b".toList, "f".toList] = some (.file 0o644 [1]) :=
  ⟨by decide, (fastCopy_move 2 exampleFS _ _ (by decide)).1,
    (fastCopy_move 2 exampleFS _ _ (by decide)).2.1 ["f".toList] _ _ (by decide)⟩

theorem ReadFile_of_look (fs : FS) (p : Path) (m : FileMode) (c : Bytes)
    (h : fs.look p = some (.file m c)) : ReadFile fs p = .ok c := by
  have hg := (look_eq_file fs p m c).1 h
  unfold ReadFile
  rw [(resolve_ok_iff fs.root p _).2 hg]

/-- C5 (counterexample): `copyFile` of the file `/a/f` (one byte) onto itself
returns no error and leaves the file empty. -/
theorem copyFile_onto_itself :
    exampleFS.look ["a".toList, "f".toList] = some (.file 0o644 [1]) ∧
    (copyFile exampleFS ["a".toList, "f".toList] ["a".toList, "f".toList]).1 = none ∧
    (copyFile exampleFS ["a".toList, "f".toList] ["a".toList, "f".toList]).2.look
      ["a".toList, "f".toList] = some (.file 0o644 []) := by
  decide

/-- C5 (amended): for every regular file with any bytes and any mode and
every destination path at which nothing exists before the call (no file, no
directory and no link), if `copyFile` returns no error then reading the
destination yields the source's bytes, the destination's mode is the source's
mode, and the source file is unchanged. -/
theorem copyFile_roundtrip (fs : FS) (source dest : Path) (m : FileMode) (c : Bytes)
    (hsrc : fs.look source = some (.file m c)) (hdst : fs.look dest = none)
    (h : (copyFile fs source dest).1 = none) :
    ReadFile (copyFile fs source dest).2 dest = .ok c ∧
    Stat (copyFile fs source dest).2 dest = .ok ⟨false, m⟩ ∧
    (copyFile fs source dest).2.look source = some (.file m c) := by
  have hne : source ≠ dest := by
    rintro rfl
    rw [hsrc] at hdst
    cases hdst
  obtain ⟨m', c', hs, hd, hframe⟩ :=
    copyFile_ok fs _ source dest hne (pair_of_fst_none _ h)
  rw [hsrc] at hs
  cases hs
  exact ⟨ReadFile_of_look _ _ m c hd, (Stat_ok_file _ _ m).2 ⟨c, hd⟩,
    by rw [hframe source hne, hsrc]⟩

/-- C5 (witness): copying the file `/a/f` to `/a/g`, where nothing exists. -/
theorem copyFile_roundtrip_witness :
    exampleFS.look ["a".toList, "f".toList] = some (.file 0o644 [1]) ∧
    exampleFS.look ["a".toList, "g".toList] = none ∧
    (copyFile exampleFS ["a".toList, "f".toList] ["a".toList, "g".toList]).1 = none ∧
    ReadFile (copyFile exampleFS ["a".toList, "f".toList] ["a".toList, "g".toList]).2
      ["a".toList, "g".toList] = .ok [1] :=
  ⟨by decide, by decide, by decide,
    (copyFile_roundtrip exampleFS _ _ 0o644 [1] (by decide) (by decide) (by decide)).1⟩

/-- C6 (counterexample): `copyDir` from `/a/b` into its parent `/a` returns no
error. The file `c` of the source held the byte 1 before the call, and the
copy `/a/c` holds 2; the file `a` of the source holds 2 after the call, and
the copy `/a/a` holds 1. -/
theorem copyDir_into_parent :
    (copyDir 3 overlapFS ["a".toList, "b".toList] ["a".toList] false).1 = none ∧
    overlapFS.look ["a".toList, "b".toList, "c".toList] = some (.file 0o644 [1]) ∧
    (copyDir 3 overlapFS ["a".toList, "b".toList] ["a".toList] false).2.look
      ["a".toList, "c".toList] = some (.file 0o644 [2]) ∧
    (copyDir 3 overlapFS ["a".toList, "b".toList] ["a".toList] false).2.look
      ["a".toList, "b".toList, "a".toList] = some (.file 0o644 [2]) ∧
    (copyDir 3 overlapFS ["a".toList, "b".toList] ["a".toList] false).2.look
      ["a".toList, "a".toList] = some (.file 0o644 [1]) := by
  decide

/-- C6 (amended): for every source and every destination that is neither the
source nor one of its ancestors, if `copyDir` returns no error then every
regular file at a relative path below the source stands at that relative path
below the destination with the same mode and bytes, every directory below the
source is a directory below the destination, and the source tree is as it was
before the call. -/
theorem copyDir_complete (fuel : Nat) (fs : FS) (source dest : Path) (move : Bool)
    (hds : ¬ dest <+: source)
    (h : (copyDir fuel fs source dest move).1 = none) :
    (∀ r m c, fs.look (source ++ r) = some (.file m c) →
      (copyDir fuel fs source dest move).2.look (dest ++ r) = some (.file m c) ∧
      (copyDir fuel fs source dest move).2.look (source ++ r) = some (.file m c)) ∧
    (∀ r m, fs.look (source ++ r) = some (.dir m) →
      (∃ m', (copyDir fuel fs source dest move).2.look (dest ++ r) = some (.dir m')) ∧
      (copyDir fuel fs source dest move).2.look (source ++ r) = some (.dir m)) := by
  have hsd : ¬ source <+: dest := by
    intro hpre
    refine copyDir_into_itself fuel fs source dest move hpre ?_ h
    rintro rfl
    exact hds (List.prefix_refl _)
  have hc := copyDir_Copied fuel fs _ source dest move hsd hds (pair_of_fst_none _ h)
  have hkeep : ∀ r, (copyDir fuel fs source dest move).2.look (source ++ r) =
      fs.look (source ++ r) := by
    intro r
    apply hc.1
    · have := not_prefix_of_disjoint hsd hds [] r
      simpa using this
    · right
      intro hp
      exact hsd ((List.prefix_append _ _).trans hp)
  constructor
  · intro r m c hl
    exact ⟨hc.2.1 r m c hl, by rw [hkeep, hl]⟩
  · intro r m hl
    exact ⟨hc.2.2 r m hl, by rw [hkeep, hl]⟩

/-- C6 (witness): copying the directory `/a/b` to `/z`. -/
theorem copyDir_complete_witness :
    ¬ ["z".toList] <+: ["a".toList, "b".toList] ∧
    (copyDir 3 overlapFS ["a".toList, "b".toList] ["z".toList] false).1 = none ∧
    (copyDir 3 overlapFS ["a".toList, "b".toList] ["z".toList] false).2.look
      (["z".toList] ++ ["b".toList, "c".toList]) = some (.file 0o644 [2]) :=
  ⟨by decide, by decide,
    ((copyDir_complete 3 overlapFS _ _ false (by decide) (by decide)).1
      ["b".toList, "c".toList] _ _ (by decide)).1⟩

/-! ## The run of `main` -/

/-- The trace of a run of `transfer` that ends with exit status 0: the
recursive-move check passes, the source exists, the destination directory is
made, `fastCopy` succeeds, and either the original is kept or it is removed
and the link is made. -/
theorem transfer_ok (fuel : Nat) (env : Env) (fs : FS) (st : Settings)
    (sourceAbs destinationAbs : Str)
    (hs : Abs env st.source = .ok sourceAbs) (hd : Abs env st.destination = .ok destinationAbs)
    (hexit : (transfer fuel env fs st).exit = 0) :
    isSubPath sourceAbs destinationAbs = false ∧
    ∃ info fs1 fs2, Stat fs (osPath env.wd sourceAbs) = .ok info ∧
      MkdirAll fs (osPath env.wd destinationAbs) 0o755 = (none, fs1) ∧
      fastCopy fuel fs1 (osPath env.wd sourceAbs)
        (osPath env.wd (Join [destinationAbs, Base sourceAbs])) st.move = (none, fs2) ∧
      ((st.keep = true ∧ (transfer fuel env fs st).fs = fs2) ∨
       (st.keep = false ∧ ∃ fs3,
          RemoveAll fs2 (osPath env.wd sourceAbs) = (none, fs3) ∧
          Symlink fs3 (Join [destinationAbs, Base sourceAbs]) (osPath env.wd sourceAbs) =
            (none, (transfer fuel env fs st).fs))) := by
  unfold transfer at hexit ⊢
  simp only [hs, hd, ite_self] at hexit ⊢
  cases hsub : isSubPath sourceAbs destinationAbs with
  | true => simp [hsub] at hexit
  | false =>
    simp only [hsub, Bool.false_eq_true, if_false] at hexit ⊢
    refine ⟨trivial, ?_⟩
    cases hstat : Stat fs (osPath env.wd sourceAbs) with
    | error e => simp [hstat] at hexit
    | ok info =>
      simp only [hstat] at hexit ⊢
      cases hmk : MkdirAll fs (osPath env.wd destinationAbs) 0o755 with
      | mk err1 fs1 =>
        cases err1 with
        | some e => simp [hmk] at hexit
        | none =>
          simp only [hmk] at hexit ⊢
          cases hfc : fastCopy fuel fs1 (osPath env.wd sourceAbs)
              (osPath env.wd (Join [destinationAbs, Base sourceAbs])) st.move with
          | mk err2 fs2 =>
            cases err2 with
            | some e => simp [hfc] at hexit
            | none =>
              simp only [hfc] at hexit ⊢
              refine ⟨info, fs1, fs2, rfl, rfl, hfc, ?_⟩
              cases hk : st.keep with
              | true => simp [hk]
              | false =>
                simp only [hk, Bool.not_false, if_true] at hexit ⊢
                right
                refine ⟨trivial, ?_⟩
                cases hrm : RemoveAll fs2 (osPath env.wd sourceAbs) with
                | mk err3 fs3 =>
                  cases err3 with
                  | some e => simp [hrm] at hexit
                  | none =>
                    simp only [hrm] at hexit ⊢
                    refine ⟨fs3, rfl, ?_⟩
                    cases hsl : Symlink fs3 (Join [destinationAbs, Base sourceAbs])
                        (osPath env.wd sourceAbs) with
                    | mk err4 fs4 =>
                      cases err4 with
                      | some e => simp [hsl] at hexit
                      | none => simp [hsl]

/-! ## Cleaning rooted path strings -/

theorem splitSep_ne_nil (s : Str) : splitSep s ≠ [] := by
  cases s with
  | nil => simp [splitSep]
  | cons c s =>
    unfold splitSep
    split
    · simp
    · split <;> simp

theorem splitSep_eq_elem (s : Str) :
    splitSep s = elemOf s :: (if afterElem s = [] then [] else splitSep (afterElem s).tail) := by
  induction s with
  | nil => simp [splitSep, elemOf, afterElem]
  | cons c s ih =>
    by_cases hc : c = '/'
    · subst hc
      simp [splitSep, elemOf, afterElem]
    · simp only [splitSep, elemOf, afterElem, hc, if_false]
      rw [ih]

theorem foldl_splitSep_nil (st : Path) : (splitSep []).foldl pathStep st = st := by
  simp [splitSep, pathStep]

theorem foldl_splitSep_slash (st : Path) (s : Str) :
    (splitSep ('/' :: s)).foldl pathStep st = (splitSep s).foldl pathStep st := by
  simp [splitSep, pathStep]

theorem afterElem_cases (s : Str) : afterElem s = [] ∨ ∃ t, afterElem s = '/' :: t := by
  induction s with
  | nil => exact Or.inl rfl
  | cons c s ih =>
    by_cases hc : c = '/'
    · subst hc
      exact Or.inr ⟨s, by simp [afterElem]⟩
    · simpa [afterElem, hc] using ih

/-- Resolving a path string: first its leading element, then the rest. -/
theorem foldl_splitSep_elem (st : Path) (s : Str) :
    (splitSep s).foldl pathStep st =
      (splitSep (afterElem s)).foldl pathStep (pathStep st (elemOf s)) := by
  rw [splitSep_eq_elem s]
  rcases afterElem_cases s with h | ⟨t, h⟩
  · simp [h, splitSep, pathStep]
  · rw [h, foldl_splitSep_slash]
    simp

theorem elemOf_no_slash (s : Str) : '/' ∉ elemOf s := by
  induction s with
  | nil => simp [elemOf]
  | cons c s ih =>
    by_cases hc : c = '/'
    · simp [elemOf, hc]
    · simp only [elemOf, hc, if_false, List.mem_cons, not_or]
      exact ⟨fun h => hc h.symm, ih⟩

theorem afterElem_length_le (s : Str) : (afterElem s).length ≤ s.length := by
  induction s with
  | nil => simp [afterElem]
  | cons c s ih =>
    by_cases hc : c = '/'
    · simp [afterElem, hc]
    · simp only [afterElem, hc, if_false, List.length_cons]
      omega

theorem pathStep_proper (st : Path) (e : Str) (hst : ProperPath st) (he : '/' ∉ e) :
    ProperPath (pathStep st e) := by
  unfold pathStep
  split
  · exact hst
  · rename_i h1
    split
    · intro n hn
      exact hst n (List.mem_of_mem_dropLast hn)
    · rename_i h2
      intro n hn
      rcases List.mem_append.1 hn with h | h
      · exact hst n h
      · simp only [List.mem_singleton] at h
        subst h
        simp only [not_or] at h1
        exact ⟨h1.1, he, h1.2, h2⟩

theorem joinNames_append (a b : Path) : joinNames (a ++ b) = joinNames a ++ joinNames b := by
  induction a with
  | nil => rfl
  | cons n a ih => simp [joinNames, ih]

theorem joinNames_eq_nil (p : Path) : joinNames p = [] ↔ p = [] := by
  cases p <;> simp [joinNames]

theorem showPath_concat (st : Path) (e : Str) :
    showPath (st ++ [e]) = joinNames st ++ '/' :: e := by
  simp [showPath, joinNames_append, joinNames]

/-- The backtracking loop over a buffer that ends in `/` and a name stops at
that separator, or at index 1 when the separator is the leading one. -/
theorem backLoop_elem (A e : Str) (he : '/' ∉ e) :
    ∀ k, 1 ≤ k → k ≤ e.length →
      backLoop (A ++ '/' :: e) 1 (A.length + k) = if A = [] then 1 else A.length := by
  intro k
  induction k with
  | zero => intro h; omega
  | succ k ih =>
    intro _ hk
    have hget : (A ++ '/' :: e).getD (A.length + (k + 1)) '/' ≠ '/' := by
      rw [List.getD_append_right _ _ _ _ (by omega)]
      have : A.length + (k + 1) - A.length = k + 1 := by omega
      rw [this, List.getD_cons_succ, List.getD_eq_getElem _ _ (by omega)]
      intro heq
      exact he (heq ▸ List.getElem_mem _)
    show backLoop (A ++ '/' :: e) 1 (A.length + k + 1) = _
    unfold backLoop
    by_cases hpos : 1 < A.length + k + 1
    · rw [if_pos ⟨hpos, hget⟩]
      by_cases hk0 : k = 0
      · subst hk0
        have hA : A ≠ [] := by
          rintro rfl
          simp at hpos
        obtain ⟨w, hw⟩ : ∃ w, A.length = w + 1 :=
          ⟨A.length - 1, by have := List.length_pos.2 hA; omega⟩
        simp only [Nat.add_zero, if_neg hA]
        rw [hw]
        unfold backLoop
        rw [if_neg, ← hw]
        rintro ⟨_, hne⟩
        apply hne
        rw [← hw, List.getD_append_right _ _ _ _ (le_refl _)]
        simp
      · exact ih (by omega) (by omega)
    · rw [if_neg (fun h => hpos h.1)]
      have hA : A = [] := by
        apply List.eq_nil_of_length_eq_zero
        omega
      have hk0 : k = 0 := by omega
      simp [hA, hk0]

theorem showPath_length_eq_one (st : Path) (hst : ProperPath st) :
    (showPath st).length = 1 ↔ st = [] := by
  cases st with
  | nil => simp [showPath]
  | cons n st =>
    have hn := (hst n (List.mem_cons_self _ _)).1
    have : 0 < n.length := List.length_pos.2 hn
    constructor
    · intro h
      have h2 : (showPath (n :: st)).length = 1 + (n.length + (joinNames st).length) := by
        simp [showPath, joinNames]
        omega
      omega
    · intro h
      cases h

/-- Backtracking over the last name of a written path leaves the path of its
parent. -/
theorem take_backLoop (st : Path) (e : Str) (hst : ProperPath (st ++ [e])) :
    (showPath (st ++ [e])).take
      (backLoop (showPath (st ++ [e])) 1 ((showPath (st ++ [e])).length - 1)) =
      showPath st := by
  have he := hst e (by simp)
  have hlen : 0 < e.length := List.length_pos.2 he.1
  rw [showPath_concat]
  have hl : (joinNames st ++ '/' :: e).length - 1 = (joinNames st).length + e.length := by
    simp
  rw [hl, backLoop_elem _ e he.2.1 e.length hlen (le_refl _)]
  by_cases hA : joinNames st = []
  · rw [if_pos hA, hA]
    have : st = [] := (joinNames_eq_nil st).1 hA
    subst this
    simp [showPath]
  · rw [if_neg hA, List.take_left']
    · have : st ≠ [] := fun h => hA ((joinNames_eq_nil st).2 h)
      simp [showPath, this]
    · rfl

theorem elemOf_eq_nil (s : Str) : elemOf s = [] ↔ s = [] ∨ s.head? = some '/' := by
  cases s with
  | nil => simp [elemOf]
  | cons c s =>
    by_cases hc : c = '/'
    · simp [elemOf, hc]
    · simp [elemOf, hc]

theorem afterElem_of_elemOf_nil (s : Str) (h : s = [] ∨ s.head? = some '/') :
    afterElem s = s := by
  cases s with
  | nil => rfl
  | cons c s =>
    rcases h with h | h
    · cases h
    · simp only [List.head?_cons, Option.some.injEq] at h
      simp [afterElem, h]

theorem splitSep_no_slash (s : Str) : ∀ e ∈ splitSep s, '/' ∉ e := by
  induction s with
  | nil => simp [splitSep]
  | cons c s ih =>
    by_cases hc : c = '/'
    · subst hc
      intro e he
      simp only [splitSep, if_true, List.mem_cons] at he
      rcases he with rfl | he
      · simp
      · exact ih e he
    · simp only [splitSep, hc, if_false]
      cases hs : splitSep s with
      | nil => exact absurd hs (splitSep_ne_nil s)
      | cons e0 es =>
        rw [hs] at ih
        intro e he
        simp only [List.mem_cons] at he
        rcases he with rfl | he
        · simp only [List.mem_cons, not_or]
          exact ⟨fun h => hc h.symm, ih e0 (List.mem_cons_self _ _)⟩
        · exact ih e (List.mem_cons_of_mem _ he)

theorem foldl_pathStep_proper (es : List Str) (hes : ∀ e ∈ es, '/' ∉ e) :
    ∀ st, ProperPath st → ProperPath (es.foldl pathStep st) := by
  induction es with
  | nil => intro st h; exact h
  | cons e es ih =>
    intro st h
    exact ih (fun x hx => hes x (List.mem_cons_of_mem _ hx)) _
      (pathStep_proper st e h (hes e (List.mem_cons_self _ _)))

theorem properPath_dropLast (st : Path) (h : ProperPath st) : ProperPath st.dropLast :=
  fun n hn => h n (List.mem_of_mem_dropLast hn)

theorem showPath_length_gt_one (st : Path) (hst : ProperPath st) (hne : st ≠ []) :
    1 < (showPath st).length := by
  have h1 : (showPath st).length ≠ 1 := fun h => hne ((showPath_length_eq_one st hst).1 h)
  have h0 : 0 < (showPath st).length := by
    unfold showPath
    split
    · simp
    · cases st with
      | nil => exact absurd rfl hne
      | cons n st => simp [joinNames]
  omega

/-- The main loop of `Clean` on a rooted path: when the buffer holds the path
of the location `st`, the loop ends with the path of the location that the
rest of the input leads to from `st`. -/
theorem cleanLoop_rooted : ∀ (fuel : Nat) (path : Str) (st : Path),
    ProperPath st → path.length ≤ fuel →
    cleanLoop true fuel path (showPath st) 1 =
      showPath ((splitSep path).foldl pathStep st) := by
  intro fuel
  induction fuel with
  | zero =>
    intro path st _ hlen
    have : path = [] := List.eq_nil_of_length_eq_zero (by omega)
    subst this
    simp [cleanLoop, foldl_splitSep_nil]
  | succ fuel ih =>
    intro path st hst hlen
    cases path with
    | nil => simp [cleanLoop, foldl_splitSep_nil]
    | cons c rest =>
      simp only [List.length_cons] at hlen
      have hrest : rest.length ≤ fuel := by omega
      unfold cleanLoop
      simp only
      by_cases hc : c = '/'
      · subst hc
        rw [if_pos rfl, foldl_splitSep_slash]
        exact ih rest st hst hrest
      · rw [if_neg hc]
        by_cases hdot : c = '.' ∧ (rest = [] ∨ rest.head? = some '/')
        · rw [if_pos hdot]
          obtain ⟨rfl, hr⟩ := hdot
          have he : elemOf ('.' :: rest) = ['.'] := by
            simp [elemOf, (elemOf_eq_nil rest).2 hr]
          have ha : afterElem ('.' :: rest) = rest := by
            simp [afterElem, afterElem_of_elemOf_nil rest hr]
          rw [ih rest st hst hrest, foldl_splitSep_elem st ('.' :: rest), he, ha]
          simp [pathStep]
        · rw [if_neg hdot]
          by_cases hdd : c = '.' ∧ rest.head? = some '.' ∧
              (rest.tail = [] ∨ rest.tail.head? = some '/')
          · rw [if_pos hdd]
            obtain ⟨rfl, hh, ht⟩ := hdd
            obtain ⟨r2, rfl⟩ : ∃ r2, rest = '.' :: r2 := by
              cases rest with
              | nil => simp at hh
              | cons a r2 =>
                simp only [List.head?_cons, Option.some.injEq] at hh
                exact ⟨r2, by rw [hh]⟩
            simp only [List.tail_cons] at ht ⊢
            have hr2 : r2.length ≤ fuel := by
              simp only [List.length_cons] at hrest
              omega
            have he : elemOf ('.' :: '.' :: r2) = ['.', '.'] := by
              simp [elemOf, (elemOf_eq_nil r2).2 ht]
            have ha : afterElem ('.' :: '.' :: r2) = r2 := by
              simp [afterElem, afterElem_of_elemOf_nil r2 ht]
            have hps : pathStep st ['.', '.'] = st.dropLast := by
              simp [pathStep]
            rw [foldl_splitSep_elem st ('.' :: '.' :: r2), he, ha, hps]
            by_cases hnil : st = []
            · subst hnil
              have : ¬ 1 < (showPath ([] : Path)).length := by simp [showPath]
              rw [if_neg this, if_neg (by simp)]
              exact ih r2 [] hst hr2
            · rw [if_pos (showPath_length_gt_one st hst hnil)]
              have hsplit := List.dropLast_append_getLast hnil
              have htake := take_backLoop st.dropLast (st.getLast hnil) (by rw [hsplit]; exact hst)
              rw [hsplit] at htake
              rw [htake]
              exact ih r2 st.dropLast (properPath_dropLast st hst) hr2
          · rw [if_neg hdd]
            have hene : elemOf (c :: rest) = c :: elemOf rest := by simp [elemOf, hc]
            have hane : afterElem (c :: rest) = afterElem rest := by simp [afterElem, hc]
            have hn1 : ¬ (elemOf (c :: rest) = [] ∨ elemOf (c :: rest) = ['.']) := by
              rw [hene]
              rintro (h | h)
              · cases h
              · injection h with h1 h2
                exact hdot ⟨h1, (elemOf_eq_nil rest).1 h2⟩
            have hn2 : ¬ elemOf (c :: rest) = ['.', '.'] := by
              rw [hene]
              intro h
              injection h with h1 h2
              apply hdd
              refine ⟨h1, ?_⟩
              cases rest with
              | nil => simp [elemOf] at h2
              | cons a r =>
                by_cases ha : a = '/'
                · simp [elemOf, ha] at h2
                · simp only [elemOf, ha, if_false, List.cons.injEq] at h2
                  simp only [List.head?_cons, List.tail_cons, h2.1, true_and]
                  exact (elemOf_eq_nil r).1 h2.2
            have hstep : pathStep st (elemOf (c :: rest)) = st ++ [elemOf (c :: rest)] := by
              unfold pathStep
              rw [if_neg hn1, if_neg hn2]
            have hlen2 : (afterElem (c :: rest)).length ≤ fuel := by
              rw [hane]
              have := afterElem_length_le rest
              omega
            have hout : ∀ (P : Prop) [Decidable P], (P ↔ st ≠ []) →
                (if P then showPath st ++ ['/'] else showPath st) ++ elemOf (c :: rest) =
                showPath (st ++ [elemOf (c :: rest)]) := by
              intro P _ hP
              rw [showPath_concat]
              by_cases hnil : st = []
              · subst hnil
                rw [if_neg (fun h => hP.1 h rfl)]
                simp [showPath, joinNames]
              · rw [if_pos (hP.2 hnil)]
                simp [showPath, hnil]
            rw [hout, foldl_splitSep_elem st (c :: rest), hstep]
            · apply ih _ _ _ hlen2
              rw [← hstep]
              exact pathStep_proper st _ hst (elemOf_no_slash _)
            · have := showPath_length_eq_one st hst
              constructor
              · rintro (⟨_, h⟩ | ⟨h, _⟩)
                · exact fun hn => h (this.2 hn)
                · cases h
              · intro hn
                exact Or.inl ⟨trivial, fun h => hn (this.1 h)⟩

theorem showPath_ne_nil (p : Path) : showPath p ≠ [] := by
  unfold showPath
  split
  · simp
  · cases p with
    | nil => contradiction
    | cons n p => simp [joinNames]

theorem showPath_head (p : Path) : ∃ t, showPath p = '/' :: t := by
  unfold showPath
  split
  · exact ⟨[], rfl⟩
  · cases p with
    | nil => contradiction
    | cons n p => exact ⟨n ++ joinNames p, rfl⟩

theorem properPath_nil : ProperPath [] := fun _ h => by cases h

theorem properPath_resolve (s : Str) (st : Path) (hst : ProperPath st) :
    ProperPath ((splitSep s).foldl pathStep st) :=
  foldl_pathStep_proper _ (splitSep_no_slash s) st hst

/-- `Clean` of a rooted path string is the written form of the location that
the string leads to from the root. -/
theorem Clean_rooted (x : Str) :
    Clean ('/' :: x) = showPath ((splitSep x).foldl pathStep []) := by
  have h := cleanLoop_rooted (x.length + 1) x [] properPath_nil (by omega)
  have hs : showPath ([] : Path) = ['/'] := rfl
  rw [hs] at h
  unfold Clean
  simp only [isPathSeparator, decide_True, if_true, h]
  rw [if_neg (showPath_ne_nil _)]

theorem elemOf_append (n t : Str) (hn : '/' ∉ n) (ht : t = [] ∨ t.head? = some '/') :
    elemOf (n ++ t) = n := by
  induction n with
  | nil => simpa using (elemOf_eq_nil t).2 ht
  | cons c n ih =>
    simp only [List.mem_cons, not_or] at hn
    have hc : c ≠ '/' := fun h => hn.1 h.symm
    simp [elemOf, hc, ih hn.2]

theorem afterElem_append (n t : Str) (hn : '/' ∉ n) (ht : t = [] ∨ t.head? = some '/') :
    afterElem (n ++ t) = t := by
  induction n with
  | nil => simpa using afterElem_of_elemOf_nil t ht
  | cons c n ih =>
    simp only [List.mem_cons, not_or] at hn
    have hc : c ≠ '/' := fun h => hn.1 h.symm
    simp [afterElem, hc, ih hn.2]

theorem pathStep_properName (st : Path) (n : Str) (hn : ProperName n) :
    pathStep st n = st ++ [n] := by
  unfold pathStep
  rw [if_neg, if_neg hn.2.2.2]
  rintro (h | h)
  · exact hn.1 h
  · exact hn.2.2.1 h

theorem joinNames_head (p : Path) : joinNames p = [] ∨ (joinNames p).head? = some '/' := by
  cases p with
  | nil => exact Or.inl rfl
  | cons n p => exact Or.inr rfl

/-- Resolving the written form of a proper location `p`, followed by more
input, first goes down `p`. -/
theorem resolve_joinNames (p : Path) (hp : ProperPath p) :
    ∀ (st : Path) (t : Str), (t = [] ∨ t.head? = some '/') →
      (splitSep (joinNames p ++ t)).foldl pathStep st =
        (splitSep t).foldl pathStep (st ++ p) := by
  induction p with
  | nil => intro st t _; simp [joinNames]
  | cons n p ih =>
    intro st t ht
    have hn := hp n (List.mem_cons_self _ _)
    have hp' : ProperPath p := fun m hm => hp m (List.mem_cons_of_mem _ hm)
    have htail : (joinNames p ++ t = [] ∨ (joinNames p ++ t).head? = some '/') := by
      rcases joinNames_head p with h | h
      · rw [h]; simpa using ht
      · right
        cases hj : joinNames p with
        | nil => rw [hj] at h; cases h
        | cons a r => rw [hj] at h; simpa using h
    simp only [joinNames, List.cons_append, List.append_assoc]
    rw [foldl_splitSep_slash, foldl_splitSep_elem, elemOf_append n _ hn.2.1 htail,
      afterElem_append n _ hn.2.1 htail, pathStep_properName st n hn, ih hp' _ t ht]
    simp

/-- The operating system reads the written form of a proper location as that
location. -/
theorem osPath_showPath (wd p : Path) (hp : ProperPath p) : osPath wd (showPath p) = p := by
  obtain ⟨t, ht⟩ := showPath_head p
  unfold osPath
  rw [ht]
  simp only [List.head?_cons, if_true]
  rw [← ht]
  by_cases hnil : p = []
  · subst hnil
    simp [showPath, splitSep, pathStep]
  · have := resolve_joinNames p hp [] [] (Or.inl rfl)
    simp only [List.append_nil, List.nil_append, foldl_splitSep_nil] at this
    simpa [showPath, hnil] using this

theorem stripSlashes_name (m t : Str) (hne : m ≠ []) (hm : '/' ∉ m) :
    stripSlashes (m ++ t) = m ++ t := by
  cases m with
  | nil => exact absurd rfl hne
  | cons c m =>
    simp only [List.mem_cons, not_or] at hm
    have hc : c ≠ '/' := fun h => hm.1 h.symm
    simp [stripSlashes, hc]

/-- `Base` of a written path that ends in a proper name is that name. -/
theorem Base_showPath_concat (q : Path) (n : Str) (hn : ProperName n) :
    Base (showPath (q ++ [n])) = n := by
  have hrev : (showPath (q ++ [n])).reverse = n.reverse ++ ('/' :: (joinNames q).reverse) := by
    rw [showPath_concat]
    simp
  have hnr : n.reverse ≠ [] := by simpa using hn.1
  have hns : '/' ∉ n.reverse := by simpa using hn.2.1
  have hel : elemOf (n.reverse ++ '/' :: (joinNames q).reverse) = n.reverse :=
    elemOf_append n.reverse _ hns (Or.inr (by simp))
  unfold Base
  rw [if_neg (showPath_ne_nil _)]
  simp only [hrev, stripSlashes_name _ _ hnr hns, hel, List.reverse_reverse]
  rw [if_neg hn.1]

theorem Base_root : Base (showPath []) = ['/'] := by decide

/-- `Abs` returns the written form of a proper location. -/
theorem Abs_showPath (env : Env) (raw a : Str) (h : Abs env raw = .ok a) :
    ∃ p, ProperPath p ∧ a = showPath p := by
  unfold Abs at h
  split at h
  · rename_i habs
    cases raw with
    | nil => simp [IsAbs, hasPrefix] at habs
    | cons c r =>
      have hc : c = '/' := by
        by_contra hne
        simp [IsAbs, hasPrefix, hne] at habs
      subst hc
      simp only [Except.ok.injEq] at h
      rw [Clean_rooted] at h
      exact ⟨_, properPath_resolve r [] properPath_nil, h.symm⟩
  · simp only [Getwd] at h
    obtain ⟨t, ht⟩ := showPath_head env.wd
    simp only [Join, joinSep, ht, Except.ok.injEq] at h
    rw [if_pos (by simp)] at h
    simp only [List.cons_append] at h
    rw [Clean_rooted] at h
    exact ⟨_, properPath_resolve _ [] properPath_nil, h.symm⟩

/-- The final destination path of `main` is the destination directory itself
or an entry of it. -/
theorem finalDest_below (env : Env) (rawS rawD a b : Str)
    (ha : Abs env rawS = .ok a) (hb : Abs env rawD = .ok b) :
    osPath env.wd b <+: osPath env.wd (Join [b, Base a]) := by
  obtain ⟨P0, hP0, rfl⟩ := Abs_showPath env rawS a ha
  obtain ⟨D0, hD0, rfl⟩ := Abs_showPath env rawD b hb
  rw [osPath_showPath env.wd D0 hD0]
  -- resolving the joined string goes down `D0` first
  have hres : ∀ base : Str, (splitSep (showPath D0 ++ '/' :: base)).foldl pathStep [] =
      (splitSep base).foldl pathStep D0 := by
    intro base
    by_cases hnil : D0 = []
    · subst hnil
      simp only [showPath, if_true, List.cons_append, List.nil_append]
      rw [foldl_splitSep_slash, foldl_splitSep_slash]
    · have := resolve_joinNames D0 hD0 [] ('/' :: base) (Or.inr rfl)
      simp only [List.nil_append] at this
      rw [foldl_splitSep_slash] at this
      simpa [showPath, hnil] using this
  have hjoin : ∀ base : Str, osPath env.wd (Join [showPath D0, base]) =
      (splitSep base).foldl pathStep D0 := by
    intro base
    obtain ⟨t, ht⟩ := showPath_head D0
    have hJ : Join [showPath D0, base] = Clean (showPath D0 ++ '/' :: base) := by
      simp [Join, joinSep, showPath_ne_nil]
    rw [hJ]
    have hcl : Clean (showPath D0 ++ '/' :: base) =
        showPath ((splitSep base).foldl pathStep D0) := by
      rw [← hres base, ht, List.cons_append, Clean_rooted, foldl_splitSep_slash]
    rw [hcl, osPath_showPath]
    exact properPath_resolve base D0 hD0
  rw [hjoin]
  rcases List.eq_nil_or_concat P0 with hnil | ⟨q, n, hqn⟩
  · subst hnil
    rw [Base_root]
    simp [splitSep, pathStep]
  · subst hqn
    have hn : ProperName n := hP0 n (by simp)
    have hq : q.concat n = q ++ [n] := by simp
    have hel : elemOf n = n := by
      have := elemOf_append n [] hn.2.1 (Or.inl rfl)
      simpa using this
    have haf : afterElem n = [] := by
      have := afterElem_append n [] hn.2.1 (Or.inl rfl)
      simpa using this
    rw [hq, Base_showPath_concat q n hn, foldl_splitSep_elem, hel, haf,
      foldl_splitSep_nil, pathStep_properName D0 n hn]
    exact List.prefix_append _ _

/-- After the destination directory `D` is made and `fastCopy` to a final
destination `F` at or below `D` has succeeded, neither of source and final
destination lies at or below the other, the final destination holds the files
and directories that the source held before both steps, and in copy mode
everything at and below the source is as it was. -/
theorem copied_after_mkdir (fuel : Nat) (fs fs1 fs2 : FS) (P F D : Path) (perm : FileMode)
    (move : Bool) (hDF : D <+: F) (hmk : MkdirAll fs D perm = (none, fs1))
    (hfc : fastCopy fuel fs1 P F move = (none, fs2)) :
    ¬ P <+: F ∧ ¬ F <+: P ∧
    (∀ r m c, fs.look (P ++ r) = some (.file m c) → fs2.look (F ++ r) = some (.file m c)) ∧
    (∀ r m, fs.look (P ++ r) = some (.dir m) → ∃ m', fs2.look (F ++ r) = some (.dir m')) ∧
    (move = false → ∀ r, fs2.look (P ++ r) = fs.look (P ++ r)) := by
  obtain ⟨_, hkeep, hframe, _⟩ := MkdirAll_ok fs fs1 D perm hmk
  obtain ⟨_, hsd, hds, fsc, hcopied, hmv⟩ := fastCopy_ok fuel fs1 fs2 P F move hfc
  have hF : ∀ r, fs2.look (F ++ r) = fsc.look (F ++ r) := by
    intro r
    rcases hmv with ⟨_, rfl⟩ | ⟨_, hrm⟩
    · rfl
    · rw [hrm, if_neg]
      have := not_prefix_of_disjoint hds hsd [] r
      simpa using this
  have hnot : ∀ r, ¬ (P ++ r) <+: F := fun r hp =>
    hsd ((List.prefix_append P r).trans hp)
  have hsame : ∀ r, fs1.look (P ++ r) = fs.look (P ++ r) := fun r =>
    hframe _ (fun hp => hnot r (hp.trans hDF))
  refine ⟨hsd, hds, ?_, ?_, ?_⟩
  · intro r m c hl
    rw [hF]
    exact hcopied.2.1 r m c (by rw [hsame]; exact hl)
  · intro r m hl
    rw [hF]
    exact hcopied.2.2 r m (by rw [hsame]; exact hl)
  · intro hmove r
    rcases hmv with ⟨_, rfl⟩ | ⟨ht, _⟩
    · have hnp : ¬ F <+: P ++ r := by
        have := not_prefix_of_disjoint hsd hds [] r
        simpa using this
      rw [hcopied.1 _ hnp (Or.inr (hnot r)), hsame]
    · rw [hmove] at ht; cases ht

/-- C7: when a run of `main` with effective keep setting false ends with exit
status 0 (so `fastCopy`, the removal and the link call all succeeded), the
original absolute source path is a symbolic link whose target is the final
destination path, the absolute destination joined with the base name of the
source, and below that path stand the files (mode and bytes) and directories
that the source held before the run. -/
theorem main_installs_link (fuel : Nat) (env : Env) (fs : FS) (st : Settings)
    (sourceAbs destinationAbs : Str)
    (hst : settings env fs = .ok st) (hkeep : st.keep = false)
    (hs : Abs env st.source = .ok sourceAbs) (hd : Abs env st.destination = .ok destinationAbs)
    (hexit : (main fuel env fs).exit = 0) :
    (main fuel env fs).fs.look (osPath env.wd sourceAbs) =
      some (.symlink (Join [destinationAbs, Base sourceAbs])) ∧
    (∀ r m c, fs.look (osPath env.wd sourceAbs ++ r) = some (.file m c) →
      (main fuel env fs).fs.look
        (osPath env.wd (Join [destinationAbs, Base sourceAbs]) ++ r) = some (.file m c)) ∧
    (∀ r m, fs.look (osPath env.wd sourceAbs ++ r) = some (.dir m) →
      ∃ m', (main fuel env fs).fs.look
        (osPath env.wd (Join [destinationAbs, Base sourceAbs]) ++ r) = some (.dir m')) := by
  have hmain : main fuel env fs = transfer fuel env fs st := by
    simp [main, hst]
  rw [hmain] at hexit ⊢
  obtain ⟨_, info, fs1, fs2, _, hmk, hfc, hend⟩ :=
    transfer_ok fuel env fs st sourceAbs destinationAbs hs hd hexit
  rcases hend with ⟨hk, _⟩ | ⟨_, fs3, hrm, hsl⟩
  · rw [hkeep] at hk; cases hk
  · obtain ⟨hsd, hds, hfiles, hdirs, _⟩ :=
      copied_after_mkdir fuel fs fs1 fs2 _ _ _ _ _
        (finalDest_below env st.source st.destination _ _ hs hd) hmk hfc
    obtain ⟨_, hlink, hother⟩ := Symlink_ok fs3 _ _ _ hsl
    have hF : ∀ r, (transfer fuel env fs st).fs.look
        (osPath env.wd (Join [destinationAbs, Base sourceAbs]) ++ r) =
        fs2.look (osPath env.wd (Join [destinationAbs, Base sourceAbs]) ++ r) := by
      intro r
      have hnp : ¬ osPath env.wd sourceAbs <+:
          osPath env.wd (Join [destinationAbs, Base sourceAbs]) ++ r := by
        have := not_prefix_of_disjoint hds hsd [] r
        simpa using this
      rw [hother _ (fun heq => hnp (by rw [heq])), RemoveAll_ok fs2 fs3 _ hrm, if_neg hnp]
    refine ⟨hlink, ?_, ?_⟩
    · intro r m c hl
      rw [hF]
      exact hfiles r m c hl
    · intro r m hl
      rw [hF]
      exact hdirs r m hl

/-- C7 (witness): `fastlink /a /t` on the example filesystem. -/
theorem main_installs_link_witness :
    (main 2 linkEnv exampleFS).exit = 0 ∧
    (main 2 linkEnv exampleFS).fs.look (osPath linkEnv.wd "/a".toList) =
      some (.symlink (Join ["/t".toList, Base "/a".toList])) ∧
    (main 2 linkEnv exampleFS).fs.look
      (osPath linkEnv.wd (Join ["/t".toList, Base "/a".toList]) ++ ["f".toList]) =
      some (.file 0o644 [1]) :=
  ⟨by decide,
    (main_installs_link 2 linkEnv exampleFS ⟨"/a".toList, "/t".toList, false, false⟩
      "/a".toList "/t".toList rfl rfl rfl rfl (by decide)).1,
    (main_installs_link 2 linkEnv exampleFS ⟨"/a".toList, "/t".toList, false, false⟩
      "/a".toList "/t".toList rfl rfl rfl rfl (by decide)).2.1 ["f".toList] _ _ (by decide)⟩

/-- C8 (evaluation at the failing input): `fastlink -k -m /a /t` runs with
effective keep setting true and ends with exit status 0 and the message
"Copied /a to /t/a (keeping original)", yet afterwards nothing exists at the
source path `/a`, which was a directory holding the file `f`; the copy stands
at `/t/a`. -/
theorem main_keep_move_removes_source :
    (settings keepMoveEnv exampleFS).toOption =
      some ⟨"/a".toList, "/t".toList, true, true⟩ ∧
    (main 2 keepMoveEnv exampleFS).exit = 0 ∧
    (main 2 keepMoveEnv exampleFS).message =
      "Copied /a to /t/a (keeping original)\n".toList ∧
    exampleFS.look ["a".toList] = some (.dir 0o755) ∧
    exampleFS.look ["a".toList, "f".toList] = some (.file 0o644 [1]) ∧
    (main 2 keepMoveEnv exampleFS).fs.look ["a".toList] = none ∧
    (main 2 keepMoveEnv exampleFS).fs.look ["a".toList, "f".toList] = none ∧
    (main 2 keepMoveEnv exampleFS).fs.look ["t".toList, "a".toList, "f".toList] =
      some (.file 0o644 [1]) := by
  decide

/-- Keeping the original in copy mode: when a run of `main` with effective
keep setting true and effective move setting false ends with exit status 0,
the remove-and-link step is skipped: what is seen at every path at or below
the original source path is
what was seen there before the run, the source path is still an ordinary file
or directory, and below the final destination stand the files (mode and bytes)
and directories of the source. -/
theorem main_keeps_source (fuel : Nat) (env : Env) (fs : FS) (st : Settings)
    (sourceAbs destinationAbs : Str)
    (hst : settings env fs = .ok st) (hkeep : st.keep = true) (hmove : st.move = false)
    (hs : Abs env st.source = .ok sourceAbs) (hd : Abs env st.destination = .ok destinationAbs)
    (hexit : (main fuel env fs).exit = 0) :
    (∀ r, (main fuel env fs).fs.look (osPath env.wd sourceAbs ++ r) =
      fs.look (osPath env.wd sourceAbs ++ r)) ∧
    (∃ info, Stat (main fuel env fs).fs (osPath env.wd sourceAbs) = .ok info) ∧
    (∀ r m c, fs.look (osPath env.wd sourceAbs ++ r) = some (.file m c) →
      (main fuel env fs).fs.look
        (osPath env.wd (Join [destinationAbs, Base sourceAbs]) ++ r) = some (.file m c)) ∧
    (∀ r m, fs.look (osPath env.wd sourceAbs ++ r) = some (.dir m) →
      ∃ m', (main fuel env fs).fs.look
        (osPath env.wd (Join [destinationAbs, Base sourceAbs]) ++ r) = some (.dir m')) := by
  have hmain : main fuel env fs = transfer fuel env fs st := by
    simp [main, hst]
  rw [hmain] at hexit ⊢
  obtain ⟨_, info, fs1, fs2, hstat, hmk, hfc, hend⟩ :=
    transfer_ok fuel env fs st sourceAbs destinationAbs hs hd hexit
  rcases hend with ⟨_, hfs⟩ | ⟨hk, _⟩
  · rw [hfs]
    obtain ⟨_, _, hfiles, hdirs, hsrc⟩ :=
      copied_after_mkdir fuel fs fs1 fs2 _ _ _ _ _
        (finalDest_below env st.source st.destination _ _ hs hd) hmk hfc
    refine ⟨hsrc hmove, ?_, hfiles, hdirs⟩
    have hroot := hsrc hmove []
    simp only [List.append_nil] at hroot
    rcases Stat_ok_look fs _ info hstat with ⟨_, hl⟩ | ⟨_, d, hl⟩
    · exact ⟨⟨true, info.mode⟩, (Stat_ok_dir _ _ _).2 (by rw [hroot]; exact hl)⟩
    · exact ⟨⟨false, info.mode⟩, (Stat_ok_file _ _ _).2 ⟨d, by rw [hroot]; exact hl⟩⟩
  · rw [hkeep] at hk; cases hk

/-- Keeping the original in copy mode, on a run: `fastlink -k /a /t` on the
example filesystem. -/
theorem main_keeps_source_witness :
    (main 2 keepEnv exampleFS).exit = 0 ∧
    (main 2 keepEnv exampleFS).fs.look (osPath keepEnv.wd "/a".toList ++ ["f".toList]) =
      exampleFS.look (osPath keepEnv.wd "/a".toList ++ ["f".toList]) :=
  ⟨by decide,
    (main_keeps_source 2 keepEnv exampleFS ⟨"/a".toList, "/t".toList, true, false⟩
      "/a".toList "/t".toList rfl rfl rfl rfl rfl (by decide)).1 ["f".toList]⟩

/-! ## Cleaning relative path strings -/

/-- Folding a step function that ignores empty elements over the elements of
a path string: first the leading element, then the rest. -/
theorem foldl_splitSep_step {σ : Type} (f : σ → Str → σ) (hf : ∀ st, f st [] = st)
    (st : σ) (s : Str) :
    (splitSep s).foldl f st = (splitSep (afterElem s)).foldl f (f st (elemOf s)) := by
  rw [splitSep_eq_elem s]
  rcases afterElem_cases s with h | ⟨t, h⟩
  · simp [h, splitSep, hf]
  · rw [h]
    simp [splitSep, hf]

theorem splitSep_append_slash (x t : Str) :
    splitSep (x ++ '/' :: t) = splitSep x ++ splitSep t := by
  induction x with
  | nil => simp [splitSep]
  | cons c x ih =>
    by_cases hc : c = '/'
    · subst hc
      simp [splitSep, ih]
    · have h1 : splitSep (c :: x ++ '/' :: t) =
          match splitSep (x ++ '/' :: t) with
          | [] => [[c]]
          | e :: es => (c :: e) :: es := by
        simp [splitSep, hc]
      have h2 : splitSep (c :: x) =
          match splitSep x with
          | [] => [[c]]
          | e :: es => (c :: e) :: es := by
        simp [splitSep, hc]
      rw [h1, h2, ih]
      cases hs : splitSep x with
      | nil => exact absurd hs (splitSep_ne_nil x)
      | cons e es => simp

theorem splitSep_name (n : Str) (hn : '/' ∉ n) : splitSep n = [n] := by
  induction n with
  | nil => rfl
  | cons c n ih =>
    simp only [List.mem_cons, not_or] at hn
    have hc : c ≠ '/' := fun h => hn.1 h.symm
    simp [splitSep, hc, ih hn.2]

theorem joinSep_cons_cons (e e' : Str) (es : List Str) :
    joinSep (e :: e' :: es) = e ++ '/' :: joinSep (e' :: es) := rfl

theorem splitSep_joinSep (els : List Str) (hne : els ≠ []) (hs : ∀ e ∈ els, '/' ∉ e) :
    splitSep (joinSep els) = els := by
  induction els with
  | nil => exact absurd rfl hne
  | cons e es ih =>
    cases es with
    | nil => simpa [joinSep] using splitSep_name e (hs e (List.mem_cons_self _ _))
    | cons e' es' =>
      rw [joinSep_cons_cons, splitSep_append_slash,
        splitSep_name e (hs e (List.mem_cons_self _ _)),
        ih (by simp) (fun x hx => hs x (List.mem_cons_of_mem _ hx))]
      rfl

theorem joinSep_append (l m : List Str) (hl : l ≠ []) (hm : m ≠ []) :
    joinSep (l ++ m) = joinSep l ++ '/' :: joinSep m := by
  induction l with
  | nil => exact absurd rfl hl
  | cons e es ih =>
    cases es with
    | nil =>
      cases m with
      | nil => exact absurd rfl hm
      | cons a m' => rfl
    | cons e' es' =>
      have := ih (by simp)
      simp only [List.cons_append] at this ⊢
      rw [joinSep_cons_cons, this, joinSep_cons_cons]
      simp

theorem joinSep_concat (l : List Str) (e : Str) :
    joinSep (l ++ [e]) = if l = [] then e else joinSep l ++ '/' :: e := by
  by_cases hl : l = []
  · simp [hl, joinSep]
  · rw [if_neg hl, joinSep_append l [e] hl (by simp)]
    rfl

theorem joinNames_eq_joinSep (p : Path) (hp : p ≠ []) : joinNames p = '/' :: joinSep p := by
  induction p with
  | nil => exact absurd rfl hp
  | cons n p ih =>
    cases p with
    | nil => simp [joinNames, joinSep]
    | cons n' p' =>
      rw [joinSep_cons_cons, joinNames, ih (by simp)]
      simp

theorem joinSep_ne_nil (l : List Str) (hl : l ≠ []) (he : ∀ e ∈ l, e ≠ []) :
    joinSep l ≠ [] := by
  cases l with
  | nil => exact absurd rfl hl
  | cons e es =>
    have hne := he e (List.mem_cons_self _ _)
    cases es with
    | nil => simpa [joinSep] using hne
    | cons e' es' => rw [joinSep_cons_cons]; simp [hne]

theorem relElems_ne_nil (k : Nat) (st : Path) (hst : ProperPath st) :
    ∀ e ∈ List.replicate k ['.', '.'] ++ st, e ≠ [] := by
  intro e he
  rcases List.mem_append.1 he with h | h
  · rw [List.eq_of_mem_replicate h]; simp
  · exact (hst e h).1

theorem relElems_no_slash (k : Nat) (st : Path) (hst : ProperPath st) :
    ∀ e ∈ List.replicate k ['.', '.'] ++ st, '/' ∉ e := by
  intro e he
  rcases List.mem_append.1 he with h | h
  · rw [List.eq_of_mem_replicate h]; decide
  · exact (hst e h).2.1

theorem relElems_eq_nil (k : Nat) (st : Path) :
    List.replicate k ['.', '.'] ++ st = [] ↔ k = 0 ∧ st = [] := by
  cases k <;> simp [List.replicate_succ]

theorem renderRel_eq_nil (k : Nat) (st : Path) (hst : ProperPath st) :
    renderRel (k, st) = [] ↔ k = 0 ∧ st = [] := by
  constructor
  · intro h
    by_contra hne
    exact joinSep_ne_nil _ (fun hl => hne ((relElems_eq_nil k st).1 hl))
      (relElems_ne_nil k st hst) h
  · rintro ⟨rfl, rfl⟩
    rfl

theorem renderRel_concat (k : Nat) (st : Path) (e : Str) :
    renderRel (k, st ++ [e]) =
      if k = 0 ∧ st = [] then e else renderRel (k, st) ++ '/' :: e := by
  unfold renderRel
  simp only
  rw [← List.append_assoc, joinSep_concat]
  by_cases h : k = 0 ∧ st = []
  · rw [if_pos ((relElems_eq_nil k st).2 h), if_pos h]
  · rw [if_neg (fun hl => h ((relElems_eq_nil k st).1 hl)), if_neg h]

theorem renderRel_succ (k : Nat) :
    renderRel (k + 1, []) =
      if k = 0 then ['.', '.'] else renderRel (k, []) ++ ['/', '.', '.'] := by
  unfold renderRel
  simp only [List.append_nil]
  rw [List.replicate_succ', joinSep_concat]
  by_cases h : k = 0
  · subst h; simp
  · rw [if_neg, if_neg h]
    cases k with
    | zero => exact absurd rfl h
    | succ k => simp [List.replicate_succ]

theorem renderRel_length_le (k : Nat) (st : Path) :
    (renderRel (k, [])).length ≤ (renderRel (k, st)).length := by
  induction st using List.reverseRecOn with
  | nil => exact le_refl _
  | append_singleton st e ih =>
    rw [renderRel_concat]
    by_cases h : k = 0 ∧ st = []
    · obtain ⟨rfl, rfl⟩ := h
      simp [renderRel, joinSep]
    · rw [if_neg h]
      simp only [List.length_append, List.length_cons]
      omega

theorem renderRel_length_lt (k : Nat) (st : Path) (hst : ProperPath st) (hne : st ≠ []) :
    (renderRel (k, [])).length < (renderRel (k, st)).length := by
  obtain ⟨st', e, rfl⟩ : ∃ st' e, st = st' ++ [e] :=
    ⟨st.dropLast, st.getLast hne, (List.dropLast_append_getLast hne).symm⟩
  have he := (hst e (by simp)).1
  have hlen : 0 < e.length := List.length_pos.2 he
  rw [renderRel_concat]
  by_cases h : k = 0 ∧ st' = []
  · obtain ⟨rfl, rfl⟩ := h
    simpa [renderRel, joinSep] using hlen
  · rw [if_neg h]
    have := renderRel_length_le k st'
    simp only [List.length_append, List.length_cons]
    omega

/-- The backtracking loop over a buffer `A ++ '/' :: e`, where the name `e`
has no separator and `..` may go back as far as `A`, stops at the separator. -/
theorem backLoop_general (A e : Str) (dd : Nat) (he : '/' ∉ e) (hdd : dd ≤ A.length) :
    ∀ k, k ≤ e.length → backLoop (A ++ '/' :: e) dd (A.length + k) = A.length := by
  intro k
  induction k with
  | zero =>
    intro _
    simp only [Nat.add_zero]
    cases hA : A.length with
    | zero => rfl
    | succ w =>
      unfold backLoop
      rw [if_neg]
      rintro ⟨_, hne⟩
      apply hne
      rw [← hA, List.getD_append_right _ _ _ _ (le_refl _)]
      simp
  | succ k ih =>
    intro hk
    have hget : (A ++ '/' :: e).getD (A.length + (k + 1)) '/' ≠ '/' := by
      rw [List.getD_append_right _ _ _ _ (by omega)]
      have : A.length + (k + 1) - A.length = k + 1 := by omega
      rw [this, List.getD_cons_succ, List.getD_eq_getElem _ _ (by omega)]
      intro heq
      exact he (heq ▸ List.getElem_mem _)
    show backLoop (A ++ '/' :: e) dd (A.length + k + 1) = _
    unfold backLoop
    rw [if_pos ⟨by omega, hget⟩]
    exact ih (by omega)

/-- The backtracking loop over a buffer that is a single name goes back to
the start. -/
theorem backLoop_single (e : Str) (he : '/' ∉ e) :
    ∀ w, w < e.length → backLoop e 0 w = 0 := by
  intro w
  induction w with
  | zero => intro _; rfl
  | succ w ih =>
    intro hw
    unfold backLoop
    rw [if_pos]
    · exact ih (by omega)
    · refine ⟨by omega, ?_⟩
      rw [List.getD_eq_getElem _ _ hw]
      intro heq
      exact he (heq ▸ List.getElem_mem _)

/-- Backtracking over the last name of a written relative path leaves the
written form without that name. -/
theorem take_backLoop_rel (k : Nat) (st : Path) (e : Str) (hst : ProperPath (st ++ [e])) :
    (renderRel (k, st ++ [e])).take
      (backLoop (renderRel (k, st ++ [e])) (renderRel (k, [])).length
        ((renderRel (k, st ++ [e])).length - 1)) = renderRel (k, st) := by
  have he := hst e (by simp)
  have hlen : 0 < e.length := List.length_pos.2 he.1
  rw [renderRel_concat]
  by_cases h : k = 0 ∧ st = []
  · obtain ⟨rfl, rfl⟩ := h
    simp only [and_self, if_true]
    have h0 : (renderRel (0, [])).length = 0 := rfl
    rw [h0, backLoop_single e he.2.1 _ (by omega)]
    rfl
  · rw [if_neg h]
    have hl : (renderRel (k, st) ++ '/' :: e).length - 1 =
        (renderRel (k, st)).length + e.length := by
      simp
    rw [hl, backLoop_general _ e _ he.2.1 (renderRel_length_le k st) e.length (le_refl _),
      List.take_left']
    rfl

theorem relStep_nil (s : Nat × Path) : relStep s [] = s := by
  simp [relStep]

theorem relStep_dot (s : Nat × Path) : relStep s ['.'] = s := by
  simp [relStep]

theorem relStep_dotdot (k : Nat) (st : Path) :
    relStep (k, st) ['.', '.'] = if st = [] then (k + 1, []) else (k, st.dropLast) := by
  simp [relStep]

theorem relStep_name (k : Nat) (st : Path) (e : Str) (h1 : ¬ (e = [] ∨ e = ['.']))
    (h2 : e ≠ ['.', '.']) : relStep (k, st) e = (k, st ++ [e]) := by
  unfold relStep
  rw [if_neg h1, if_neg h2]

theorem foldl_splitSep_slash_step {σ : Type} (f : σ → Str → σ) (hf : ∀ st, f st [] = st)
    (st : σ) (s : Str) :
    (splitSep ('/' :: s)).foldl f st = (splitSep s).foldl f st := by
  simp [splitSep, hf]

/-- The main loop of `Clean` on a path that is not rooted: when the buffer
holds the written form of the state `(k, st)` and `..` may go back as far as
the `k` leading `..` elements, the loop ends with the written form of the
state that the rest of the input leads to. -/
theorem cleanLoop_relative : ∀ (fuel : Nat) (path : Str) (k : Nat) (st : Path),
    ProperPath st → path.length ≤ fuel →
    cleanLoop false fuel path (renderRel (k, st)) (renderRel (k, [])).length =
      renderRel ((splitSep path).foldl relStep (k, st)) := by
  intro fuel
  induction fuel with
  | zero =>
    intro path k st _ hlen
    have : path = [] := List.eq_nil_of_length_eq_zero (by omega)
    subst this
    simp [cleanLoop, splitSep, relStep_nil]
  | succ fuel ih =>
    intro path k st hst hlen
    cases path with
    | nil => simp [cleanLoop, splitSep, relStep_nil]
    | cons c rest =>
      simp only [List.length_cons] at hlen
      have hrest : rest.length ≤ fuel := by omega
      unfold cleanLoop
      simp only
      by_cases hc : c = '/'
      · subst hc
        rw [if_pos rfl, foldl_splitSep_slash_step relStep relStep_nil]
        exact ih rest k st hst hrest
      · rw [if_neg hc]
        by_cases hdot : c = '.' ∧ (rest = [] ∨ rest.head? = some '/')
        · rw [if_pos hdot]
          obtain ⟨rfl, hr⟩ := hdot
          have he : elemOf ('.' :: rest) = ['.'] := by
            simp [elemOf, (elemOf_eq_nil rest).2 hr]
          have ha : afterElem ('.' :: rest) = rest := by
            simp [afterElem, afterElem_of_elemOf_nil rest hr]
          rw [ih rest k st hst hrest,
            foldl_splitSep_step relStep relStep_nil (k, st) ('.' :: rest), he, ha, relStep_dot]
        · rw [if_neg hdot]
          by_cases hdd : c = '.' ∧ rest.head? = some '.' ∧
              (rest.tail = [] ∨ rest.tail.head? = some '/')
          · rw [if_pos hdd]
            obtain ⟨rfl, hh, ht⟩ := hdd
            obtain ⟨r2, rfl⟩ : ∃ r2, rest = '.' :: r2 := by
              cases rest with
              | nil => simp at hh
              | cons a r2 =>
                simp only [List.head?_cons, Option.some.injEq] at hh
                exact ⟨r2, by rw [hh]⟩
            simp only [List.tail_cons] at ht ⊢
            have hr2 : r2.length ≤ fuel := by
              simp only [List.length_cons] at hrest
              omega
            have he : elemOf ('.' :: '.' :: r2) = ['.', '.'] := by
              simp [elemOf, (elemOf_eq_nil r2).2 ht]
            have ha : afterElem ('.' :: '.' :: r2) = r2 := by
              simp [afterElem, afterElem_of_elemOf_nil r2 ht]
            rw [foldl_splitSep_step relStep relStep_nil (k, st) ('.' :: '.' :: r2), he, ha,
              relStep_dotdot]
            by_cases hnil : st = []
            · subst hnil
              rw [if_neg (lt_irrefl _), if_pos rfl, if_pos trivial]
              have hout : (if 0 < (renderRel (k, [])).length then renderRel (k, []) ++ ['/']
                  else renderRel (k, [])) ++ ['.', '.'] = renderRel (k + 1, []) := by
                rw [renderRel_succ]
                by_cases hk : k = 0
                · subst hk
                  simp [renderRel, joinSep]
                · have hne : renderRel (k, []) ≠ [] := fun h =>
                    hk ((renderRel_eq_nil k [] properPath_nil).1 h).1
                  rw [if_pos (List.length_pos.2 hne), if_neg hk]
                  simp
              rw [hout]
              exact ih r2 (k + 1) [] properPath_nil hr2
            · rw [if_pos (renderRel_length_lt k st hst hnil), if_neg hnil]
              have hsplit := List.dropLast_append_getLast hnil
              have htake := take_backLoop_rel k st.dropLast (st.getLast hnil)
                (by rw [hsplit]; exact hst)
              rw [hsplit] at htake
              rw [htake]
              exact ih r2 k st.dropLast (properPath_dropLast st hst) hr2
          · rw [if_neg hdd]
            have hene : elemOf (c :: rest) = c :: elemOf rest := by simp [elemOf, hc]
            have hane : afterElem (c :: rest) = afterElem rest := by simp [afterElem, hc]
            have hn1 : ¬ (elemOf (c :: rest) = [] ∨ elemOf (c :: rest) = ['.']) := by
              rw [hene]
              rintro (h | h)
              · cases h
              · injection h with h1 h2
                exact hdot ⟨h1, (elemOf_eq_nil rest).1 h2⟩
            have hn2 : ¬ elemOf (c :: rest) = ['.', '.'] := by
              rw [hene]
              intro h
              injection h with h1 h2
              apply hdd
              refine ⟨h1, ?_⟩
              cases rest with
              | nil => simp [elemOf] at h2
              | cons a r =>
                by_cases ha : a = '/'
                · simp [elemOf, ha] at h2
                · simp only [elemOf, ha, if_false, List.cons.injEq] at h2
                  simp only [List.head?_cons, List.tail_cons, h2.1, true_and]
                  exact (elemOf_eq_nil r).1 h2.2
            have hlen2 : (afterElem (c :: rest)).length ≤ fuel := by
              rw [hane]
              have := afterElem_length_le rest
              omega
            have hproper : ProperPath (st ++ [elemOf (c :: rest)]) := by
              intro n hn
              rcases List.mem_append.1 hn with h | h
              · exact hst n h
              · simp only [List.mem_singleton] at h
                subst h
                simp only [not_or] at hn1
                exact ⟨hn1.1, elemOf_no_slash _, hn1.2, hn2⟩
            have hout : ∀ (P : Prop) [Decidable P], (P ↔ renderRel (k, st) ≠ []) →
                (if P then renderRel (k, st) ++ ['/'] else renderRel (k, st)) ++
                  elemOf (c :: rest) = renderRel (k, st ++ [elemOf (c :: rest)]) := by
              intro P _ hP
              rw [renderRel_concat]
              by_cases hnil : k = 0 ∧ st = []
              · rw [if_pos hnil, if_neg (fun h => hP.1 h ((renderRel_eq_nil k st hst).2 hnil)),
                  (renderRel_eq_nil k st hst).2 hnil]
                rfl
              · rw [if_neg hnil,
                  if_pos (hP.2 (fun h => hnil ((renderRel_eq_nil k st hst).1 h)))]
                simp
            rw [hout, foldl_splitSep_step relStep relStep_nil (k, st) (c :: rest),
              relStep_name k st _ hn1 hn2]
            · exact ih _ k _ hproper hlen2
            · constructor
              · rintro (⟨h, _⟩ | ⟨_, h⟩)
                · cases h
                · exact fun hn => h (by rw [hn]; rfl)
              · intro hn
                exact Or.inr ⟨trivial, fun h => hn (List.eq_nil_of_length_eq_zero h)⟩

theorem relStep_proper (s : Nat × Path) (e : Str) (hs : ProperPath s.2) (he : '/' ∉ e) :
    ProperPath (relStep s e).2 := by
  unfold relStep
  split
  · exact hs
  · rename_i h1
    split
    · split
      · exact properPath_nil
      · exact properPath_dropLast _ hs
    · rename_i h2
      intro n hn
      rcases List.mem_append.1 hn with h | h
      · exact hs n h
      · simp only [List.mem_singleton] at h
        subst h
        simp only [not_or] at h1
        exact ⟨h1.1, he, h1.2, h2⟩

theorem foldl_relStep_proper (es : List Str) (hes : ∀ e ∈ es, '/' ∉ e) :
    ∀ s : Nat × Path, ProperPath s.2 → ProperPath (es.foldl relStep s).2 := by
  induction es with
  | nil => intro s h; exact h
  | cons e es ih =>
    intro s h
    exact ih (fun x hx => hes x (List.mem_cons_of_mem _ hx)) _
      (relStep_proper s e h (hes e (List.mem_cons_self _ _)))

/-- `Clean` of a path string that is not rooted is the written form of the
state its elements lead to, and `.` when that form is empty. -/
theorem Clean_relative (s : Str) (hs : s.head? ≠ some '/') :
    Clean s =
      if renderRel ((splitSep s).foldl relStep (0, [])) = [] then ['.']
      else renderRel ((splitSep s).foldl relStep (0, [])) := by
  cases s with
  | nil => simp [Clean, splitSep, relStep_nil, renderRel, joinSep]
  | cons c rest =>
    have hc : c ≠ '/' := by
      intro h
      exact hs (by simp [h])
    have h := cleanLoop_relative (rest.length + 2) (c :: rest) 0 [] properPath_nil
      (by simp)
    have h0 : renderRel (0, []) = [] := rfl
    rw [h0] at h
    simp only [List.length_nil] at h
    unfold Clean
    simp only [isPathSeparator, hc, decide_False, Bool.false_eq_true, if_false, h]

theorem foldl_pathStep_names (segs : Path) (hp : ProperPath segs) :
    ∀ st : Path, segs.foldl pathStep st = st ++ segs := by
  induction segs with
  | nil => intro st; simp
  | cons n segs ih =>
    intro st
    rw [List.foldl_cons, pathStep_properName st n (hp n (List.mem_cons_self _ _)),
      ih (fun m hm => hp m (List.mem_cons_of_mem _ hm))]
    simp

theorem foldl_relStep_names (segs : Path) (hp : ProperPath segs) :
    ∀ (k : Nat) (st : Path), segs.foldl relStep (k, st) = (k, st ++ segs) := by
  induction segs with
  | nil => intro k st; simp
  | cons n segs ih =>
    intro k st
    have hn := hp n (List.mem_cons_self _ _)
    rw [List.foldl_cons, relStep_name k st n (fun h => h.elim hn.1 hn.2.2.1) hn.2.2.2,
      ih (fun m hm => hp m (List.mem_cons_of_mem _ hm))]
    simp

theorem foldl_relStep_ups (k : Nat) :
    ∀ j : Nat, (List.replicate k ['.', '.']).foldl relStep (j, []) = (j + k, []) := by
  induction k with
  | zero => intro j; rfl
  | succ k ih =>
    intro j
    rw [List.replicate_succ, List.foldl_cons, relStep_dotdot, if_pos rfl, ih]
    congr 1
    omega

/-- The elements of the written form of a state lead back to that state. -/
theorem foldl_relStep_renderRel (k : Nat) (st : Path) (hst : ProperPath st)
    (hne : ¬ (k = 0 ∧ st = [])) :
    (splitSep (renderRel (k, st))).foldl relStep (0, []) = (k, st) := by
  unfold renderRel
  simp only
  rw [splitSep_joinSep _ (fun h => hne ((relElems_eq_nil k st).1 h))
    (relElems_no_slash k st hst), List.foldl_append, foldl_relStep_ups,
    foldl_relStep_names st hst]
  simp

theorem renderRel_head (k : Nat) (st : Path) (hst : ProperPath st) :
    (renderRel (k, st)).head? ≠ some '/' := by
  unfold renderRel
  simp only
  cases hl : List.replicate k ['.', '.'] ++ st with
  | nil => simp [joinSep]
  | cons e es =>
    have hmem : e ∈ List.replicate k ['.', '.'] ++ st := by rw [hl]; exact List.mem_cons_self _ _
    have hne := relElems_ne_nil k st hst e hmem
    have hns := relElems_no_slash k st hst e hmem
    cases e with
    | nil => exact absurd rfl hne
    | cons c e' =>
      have hc : c ≠ '/' := by
        intro h
        exact hns (by simp [h])
      cases es with
      | nil => simpa [joinSep] using hc
      | cons e2 es2 =>
        rw [joinSep_cons_cons]
        simpa using hc

/-- `Clean` leaves the written form of a non-empty state as it is. -/
theorem Clean_renderRel (k : Nat) (st : Path) (hst : ProperPath st)
    (hne : ¬ (k = 0 ∧ st = [])) : Clean (renderRel (k, st)) = renderRel (k, st) := by
  rw [Clean_relative _ (renderRel_head k st hst), foldl_relStep_renderRel k st hst hne,
    if_neg (fun h => hne ((renderRel_eq_nil k st hst).1 h))]

/-- `Clean` leaves the written form of a proper location as it is. -/
theorem Clean_showPath (p : Path) (hp : ProperPath p) : Clean (showPath p) = showPath p := by
  obtain ⟨t, ht⟩ := showPath_head p
  have h := osPath_showPath [] p hp
  unfold osPath at h
  rw [ht] at h
  simp only [List.head?_cons, if_true] at h
  rw [foldl_splitSep_slash] at h
  rw [ht, Clean_rooted, h, ← ht]

theorem Clean_dot : Clean ['.'] = ['.'] := by decide

/-! ## Ancestors and the path guard -/

theorem splitSep_descend (x : Str) (segs : Path) (hne : segs ≠ []) (hp : ProperPath segs) :
    splitSep (x ++ joinNames segs) = splitSep x ++ segs := by
  rw [joinNames_eq_joinSep segs hne, splitSep_append_slash,
    splitSep_joinSep segs hne (fun e he => (hp e he).2.1)]

/-- `Clean` of a rooted path followed by proper names: the cleaned path
followed by those names. -/
theorem Clean_descend_rooted (x : Str) (segs : Path) (hne : segs ≠ [])
    (hp : ProperPath segs) :
    Clean ('/' :: x ++ joinNames segs) =
      showPath ((splitSep x).foldl pathStep [] ++ segs) := by
  rw [List.cons_append, Clean_rooted, splitSep_descend x segs hne hp, List.foldl_append,
    foldl_pathStep_names segs hp]

/-- `Clean` of a non-empty path that is not rooted, followed by proper names:
the state of the path with those names added. -/
theorem Clean_descend_relative (A : Str) (hA : A ≠ []) (hh : A.head? ≠ some '/')
    (segs : Path) (hne : segs ≠ []) (hp : ProperPath segs) :
    Clean (A ++ joinNames segs) =
      renderRel (((splitSep A).foldl relStep (0, [])).1,
        ((splitSep A).foldl relStep (0, [])).2 ++ segs) := by
  have hhead : (A ++ joinNames segs).head? ≠ some '/' := by
    cases A with
    | nil => exact absurd rfl hA
    | cons c r => simpa using hh
  have hst : ProperPath ((splitSep A).foldl relStep (0, [])).2 :=
    foldl_relStep_proper _ (splitSep_no_slash A) _ properPath_nil
  have hall : ProperPath (((splitSep A).foldl relStep (0, [])).2 ++ segs) := by
    intro n hn
    rcases List.mem_append.1 hn with h | h
    · exact hst n h
    · exact hp n h
  rw [Clean_relative _ hhead, splitSep_descend A segs hne hp, List.foldl_append,
    foldl_relStep_names segs hp, if_neg]
  intro h
  have := (renderRel_eq_nil _ _ hall).1 h
  simp [hne] at this

theorem elemOf_joinSep_cons (e : Str) (rest : List Str) (he : '/' ∉ e) :
    elemOf (joinSep (e :: rest)) = e := by
  cases rest with
  | nil =>
    have := elemOf_append e [] he (Or.inl rfl)
    simpa [joinSep] using this
  | cons a m =>
    rw [joinSep_cons_cons]
    exact elemOf_append e _ he (Or.inr rfl)

theorem afterElem_tail_joinSep_cons (e : Str) (rest : List Str) (he : '/' ∉ e) :
    (afterElem (joinSep (e :: rest))).tail = joinSep rest := by
  cases rest with
  | nil =>
    have := afterElem_append e [] he (Or.inl rfl)
    simp only [List.append_nil] at this
    simp [joinSep, this]
  | cons a m =>
    rw [joinSep_cons_cons, afterElem_append e ('/' :: joinSep (a :: m)) he (Or.inr rfl)]
    rfl

theorem length_le_joinSep (l : List Str) (hl : ∀ e ∈ l, e ≠ []) :
    l.length ≤ (joinSep l).length := by
  induction l with
  | nil => simp [joinSep]
  | cons e es ih =>
    have he : 0 < e.length := List.length_pos.2 (hl e (List.mem_cons_self _ _))
    have ih' := ih (fun x hx => hl x (List.mem_cons_of_mem _ hx))
    cases es with
    | nil => simpa [joinSep] using he
    | cons a m =>
      rw [joinSep_cons_cons]
      simp only [List.length_cons, List.length_append] at ih' ⊢
      omega

theorem joinSep_cons_ne_nil (e : Str) (l : List Str) (he : e ≠ []) :
    joinSep (e :: l) ≠ [] := by
  cases l with
  | nil => simpa [joinSep] using he
  | cons a m => rw [joinSep_cons_cons]; simp [he]

/-- The matching loop of `Rel` on a base that is the target followed by more
elements: all elements of the target match, and the loop ends with the rest
of the base left over. -/
theorem relLoop_common (segs : List Str) :
    ∀ (els : List Str) (fuel : Nat), (∀ e ∈ els, e ≠ [] ∧ '/' ∉ e) → els.length ≤ fuel →
      relLoop fuel (joinSep (els ++ segs)) (joinSep els) = ([], joinSep segs, []) := by
  intro els
  induction els with
  | nil =>
    intro fuel _ _
    cases fuel with
    | zero => rfl
    | succ f => simp [relLoop, joinSep]
  | cons e rest ih =>
    intro fuel hels hfuel
    cases fuel with
    | zero => simp at hfuel
    | succ f =>
      have he := hels e (List.mem_cons_self _ _)
      have hb : joinSep (e :: (rest ++ segs)) ≠ [] := joinSep_cons_ne_nil e _ he.1
      have ht : joinSep (e :: rest) ≠ [] := joinSep_cons_ne_nil e _ he.1
      rw [List.cons_append]
      unfold relLoop
      rw [if_neg (fun h => h.elim hb ht), elemOf_joinSep_cons e _ he.2,
        elemOf_joinSep_cons e _ he.2, if_neg (fun h => h rfl),
        afterElem_tail_joinSep_cons e _ he.2, afterElem_tail_joinSep_cons e _ he.2]
      exact ih f (fun x hx => hels x (List.mem_cons_of_mem _ hx))
        (by simp only [List.length_cons] at hfuel; omega)

/-- When the cleaned child is not the cleaned parent and the matching loop of
`Rel` (if it is reached) leaves elements of the parent over, `isSubPath`
answers false. -/
theorem isSubPath_false_of_loop (P A b t : Str) (hP : Clean P = b) (hA : Clean A = t)
    (hb : Clean b = b) (ht : Clean t = t) (hne : t ≠ b) (hdot : b ≠ ['.'])
    (hloop : (decide (b.head? = some '/') = decide (t.head? = some '/')) →
      ∃ be b0 t0, relLoop (b.length + 1) b t = (be, b0, t0) ∧ b0 ≠ []) :
    isSubPath P A = false := by
  unfold isSubPath
  simp only [hP, hA]
  unfold Rel
  simp only [hb, ht, if_neg hne, if_neg hdot]
  by_cases hs : decide (b.head? = some '/') = decide (t.head? = some '/')
  · obtain ⟨be, b0, t0, hl, hb0⟩ := hloop hs
    rw [if_neg (fun h => h hs), hl]
    simp only
    by_cases hbe : be = ['.', '.']
    · rw [if_pos hbe]
    · rw [if_neg hbe, if_pos hb0]
      simp [hasPrefix]
  · rw [if_pos hs]

theorem showPath_eq_joinSep (p : Path) : showPath p = '/' :: joinSep p := by
  by_cases hp : p = []
  · subst hp; rfl
  · simp [showPath, hp, joinNames_eq_joinSep p hp]

theorem properPath_append (a b : Path) (ha : ProperPath a) (hb : ProperPath b) :
    ProperPath (a ++ b) := by
  intro n hn
  rcases List.mem_append.1 hn with h | h
  · exact ha n h
  · exact hb n h

theorem properPath_elems (p : Path) (hp : ProperPath p) : ∀ e ∈ p, e ≠ [] ∧ '/' ∉ e :=
  fun e he => ⟨(hp e he).1, (hp e he).2.1⟩

/-- The path guard on a rooted parent and one of its strict ancestors. -/
theorem isSubPath_ancestor_rooted (x : Str) (segs : Path) (hne : segs ≠ [])
    (hp : ProperPath segs) : isSubPath ('/' :: x ++ joinNames segs) ('/' :: x) = false := by
  have hD : ProperPath ((splitSep x).foldl pathStep []) :=
    properPath_resolve x [] properPath_nil
  generalize hDdef : (splitSep x).foldl pathStep [] = D at hD
  have hDs := properPath_append D segs hD hp
  have hJ : joinSep segs ≠ [] := joinSep_ne_nil segs hne (fun e he => (hp e he).1)
  apply isSubPath_false_of_loop _ _ (showPath (D ++ segs)) (showPath D)
  · rw [Clean_descend_rooted x segs hne hp, hDdef]
  · rw [Clean_rooted, hDdef]
  · exact Clean_showPath _ hDs
  · exact Clean_showPath _ hD
  · intro heq
    have h1 := osPath_showPath [] D hD
    rw [heq, osPath_showPath [] (D ++ segs) hDs] at h1
    exact hne (List.append_right_eq_self.1 h1)
  · rw [showPath_eq_joinSep]; simp
  · intro _
    refine ⟨[], joinSep segs, [], ?_, hJ⟩
    have hlen : D.length ≤ (showPath (D ++ segs)).length := by
      have := length_le_joinSep (D ++ segs) (fun e he => (hDs e he).1)
      rw [showPath_eq_joinSep]
      simp only [List.length_append, List.length_cons] at this ⊢
      omega
    rw [showPath_eq_joinSep, showPath_eq_joinSep] at *
    unfold relLoop
    rw [if_neg (by simp)]
    simp only [elemOf, afterElem, if_true, List.tail_cons]
    rw [if_neg (fun h => h rfl)]
    exact relLoop_common segs D _ (properPath_elems D hD) hlen

/-- The path guard on the empty path and a rooted path. -/
theorem isSubPath_ancestor_empty (segs : Path) (hne : segs ≠ []) (hp : ProperPath segs) :
    isSubPath ([] ++ joinNames segs) [] = false := by
  have hsp : joinNames segs = showPath segs := by simp [showPath, hne]
  apply isSubPath_false_of_loop _ _ (showPath segs) ['.']
  · rw [List.nil_append, hsp]; exact Clean_showPath segs hp
  · rfl
  · exact Clean_showPath segs hp
  · exact Clean_dot
  · rw [showPath_eq_joinSep]; simp
  · rw [showPath_eq_joinSep]; simp
  · intro h
    rw [showPath_eq_joinSep] at h
    simp at h

/-- The path guard on a non-empty parent that is not rooted and one of its
strict ancestors. -/
theorem isSubPath_ancestor_relative (A : Str) (hA : A ≠ []) (hh : A.head? ≠ some '/')
    (segs : Path) (hne : segs ≠ []) (hp : ProperPath segs) :
    isSubPath (A ++ joinNames segs) A = false := by
  have hst : ProperPath ((splitSep A).foldl relStep (0, [])).2 :=
    foldl_relStep_proper _ (splitSep_no_slash A) _ properPath_nil
  have hPc := Clean_descend_relative A hA hh segs hne hp
  have hAc := Clean_relative A hh
  generalize (splitSep A).foldl relStep (0, []) = s at hst hPc hAc
  obtain ⟨k, st⟩ := s
  simp only at hst hPc hAc
  have hall := properPath_append st segs hst hp
  have hJ : joinSep segs ≠ [] := joinSep_ne_nil segs hne (fun e he => (hp e he).1)
  have hbne : ¬ (k = 0 ∧ st ++ segs = []) := by simp [hne]
  obtain ⟨s1, rest, rfl⟩ : ∃ s1 rest, segs = s1 :: rest := by
    cases segs with
    | nil => exact absurd rfl hne
    | cons a m => exact ⟨a, m, rfl⟩
  have hs1 := hp s1 (List.mem_cons_self _ _)
  by_cases h0 : k = 0 ∧ st = []
  · obtain ⟨rfl, rfl⟩ := h0
    have hb : renderRel (0, [] ++ s1 :: rest) = joinSep (s1 :: rest) := rfl
    have hnd : joinSep (s1 :: rest) ≠ ['.'] := by
      intro h
      have := elemOf_joinSep_cons s1 rest hs1.2.1
      rw [h] at this
      exact hs1.2.2.1 (by rw [← this]; decide)
    apply isSubPath_false_of_loop _ _ (joinSep (s1 :: rest)) ['.']
    · rw [hPc, hb]
    · rw [hAc]; rfl
    · rw [← hb]; exact Clean_renderRel 0 _ hall hbne
    · exact Clean_dot
    · exact fun h => hnd h.symm
    · exact hnd
    · intro _
      refine ⟨s1, joinSep (s1 :: rest), ['.'], ?_, hJ⟩
      unfold relLoop
      rw [if_neg (fun h => h.elim hJ (by simp)), elemOf_joinSep_cons s1 rest hs1.2.1,
        if_pos]
      intro h
      exact hs1.2.2.1 (by rw [← h]; decide)
  · have hels : List.replicate k ['.', '.'] ++ st ≠ [] := fun h =>
      h0 ((relElems_eq_nil k st).1 h)
    have hrender : renderRel (k, st ++ s1 :: rest) =
        joinSep ((List.replicate k ['.', '.'] ++ st) ++ s1 :: rest) := by
      simp [renderRel]
    have hsplit := joinSep_append (List.replicate k ['.', '.'] ++ st) (s1 :: rest) hels hne
    have hrne : renderRel (k, st) ≠ [] := fun h => h0 ((renderRel_eq_nil k st hst).1 h)
    apply isSubPath_false_of_loop _ _ (renderRel (k, st ++ s1 :: rest)) (renderRel (k, st))
    · exact hPc
    · rw [hAc, if_neg hrne]
    · exact Clean_renderRel k _ hall hbne
    · exact Clean_renderRel k st hst h0
    · intro h
      have := congrArg List.length h
      rw [hrender, hsplit] at this
      simp [renderRel] at this
    · intro h
      have := congrArg List.length h
      rw [hrender, hsplit] at this
      have hpos : 0 < (joinSep (List.replicate k ['.', '.'] ++ st)).length :=
        List.length_pos.2 hrne
      simp only [List.length_append, List.length_cons, List.length_nil] at this
      omega
    · intro _
      refine ⟨[], joinSep (s1 :: rest), [], ?_, hJ⟩
      rw [hrender]
      show relLoop _ _ (joinSep (List.replicate k ['.', '.'] ++ st)) = _
      apply relLoop_common (s1 :: rest) _ _
        (fun e he => ⟨relElems_ne_nil k st hst e he, relElems_no_slash k st hst e he⟩)
      have := length_le_joinSep ((List.replicate k ['.', '.'] ++ st) ++ s1 :: rest)
        (by
          intro e he
          rcases List.mem_append.1 he with h | h
          · exact relElems_ne_nil k st hst e h
          · exact (hp e h).1)
      simp only [List.length_append] at this ⊢
      omega

/-- C11: for every path `A` and every path `P` that is `A` followed by one or
more segments, each a file name other than `.` and `..`, `isSubPath P A` is
false. -/
theorem isSubPath_ancestor (A : Str) (segs : Path) (hne : segs ≠ [])
    (hp : ProperPath segs) : isSubPath (A ++ joinNames segs) A = false := by
  cases A with
  | nil => exact isSubPath_ancestor_empty segs hne hp
  | cons c x =>
    by_cases hc : c = '/'
    · subst hc
      exact isSubPath_ancestor_rooted x segs hne hp
    · exact isSubPath_ancestor_relative (c :: x) (by simp) (by simpa using hc) segs hne hp

/-- C11 (witness): the parent `/home/user/documents` and its ancestor
`/home/user`. -/
theorem isSubPath_ancestor_witness :
    ["documents".toList] ≠ [] ∧ ProperPath ["documents".toList] ∧
    isSubPath ("/home/user".toList ++ joinNames ["documents".toList]) "/home/user".toList =
      false :=
  ⟨by decide, by unfold ProperPath ProperName; decide,
    isSubPath_ancestor "/home/user".toList ["documents".toList] (by decide)
      (by unfold ProperPath ProperName; decide)⟩

end Fastlink
